import Mathlib

/-!
Verification development for the tasklog repository (a markdown task log).

Contents are modelled as lists of characters (`List Char`); the model covers
ASCII documents without carriage returns, matching the log format the program
reads and writes.  All definitions are translated from the Rust sources in
`src/`: the line classifiers follow the regexes of `src/parser.rs`, the
windowed parser follows `parse_log`, the counter store follows
`src/state.rs`, and the mutation operations follow `src/writer.rs` with the
ambient effects (clock, configuration, counter-store file) passed explicitly
as arguments.
-/

deriving instance DecidableEq for Except

namespace Tasklog

/-- ASCII fragment of the whitespace class used by the regexes and by
Rust string trimming. -/
def isWsChar (c : Char) : Bool :=
  c = ' ' || c = '\t' || c = '\n' || c = '\r' || c = '\x0b' || c = '\x0c'

/-- ASCII lowercase letter, as in Rust `is_ascii_lowercase`. -/
def isLowerCh (c : Char) : Bool := 'a' ≤ c && c ≤ 'z'

/-- ASCII digit, as in Rust `is_ascii_digit`. -/
def isDigitCh (c : Char) : Bool := '0' ≤ c && c ≤ '9'

/-- Characters allowed in a tag: lowercase alphanumeric. -/
def isTagCh (c : Char) : Bool := isLowerCh c || isDigitCh c

/-- Rust `str::trim`: drop whitespace from both ends. -/
def trimWs (l : List Char) : List Char :=
  ((l.dropWhile isWsChar).reverse.dropWhile isWsChar).reverse

/-- Split a character list at every newline; always returns at least one
chunk, and a trailing newline yields a trailing empty chunk. -/
def splitNl : List Char → List (List Char)
  | [] => [[]]
  | c :: cs =>
    if c = '\n' then [] :: splitNl cs
    else
      match splitNl cs with
      | [] => [[c]]
      | l :: ls => (c :: l) :: ls

/-- Rust `str::lines`: like `splitNl` but without the empty chunk produced
by a final newline (and `[]` for the empty string). -/
def rlines (cs : List Char) : List (List Char) :=
  if (splitNl cs).getLast? = some [] then (splitNl cs).dropLast else splitNl cs

/-- Join lines with single newlines (Rust `join("\n")`). -/
def joinNl : List (List Char) → List Char
  | [] => []
  | [l] => l
  | l :: l2 :: rest => l ++ '\n' :: joinNl (l2 :: rest)

/-- The writer's rejoin step: `join("\n")` followed by
`if !s.ends_with('\n') { s.push('\n') }`. -/
def unlines (ls : List (List Char)) : List Char :=
  if (joinNl ls).getLast? = some '\n' then joinNl ls else joinNl ls ++ ['\n']

/-- Numeric value of a digit string, as accumulated by `u64::parse`. -/
def digitsVal (ds : List Char) : Nat :=
  ds.foldl (fun n c => n * 10 + (c.toNat - 48)) 0

/-- Decimal digit character. -/
def digitCh (n : Nat) : Char := Char.ofNat (48 + n)

/-- Fuel-driven decimal printing helper. -/
def natDigitsAux : Nat → Nat → List Char
  | 0, n => [digitCh n]
  | fuel + 1, n =>
    if n < 10 then [digitCh n]
    else natDigitsAux fuel (n / 10) ++ [digitCh (n % 10)]

/-- Decimal representation of a natural number, as produced by Rust's
`Display` for `u64` (no sign, no leading zeros). -/
def natDigits (n : Nat) : List Char := natDigitsAux n n

/-- `List.isPrefixOf` as a plain boolean on characters. -/
def startsWith : List Char → List Char → Bool
  | _, [] => true
  | [], _ :: _ => false
  | c :: s, p :: ps => c = p && startsWith s ps

/-- Rust `str::replacen(pat, rep, 1)`: replace the leftmost occurrence of
`pat` (if any) by `rep`. -/
def replaceFirst (pat rep : List Char) : List Char → List Char
  | [] => if startsWith [] pat then rep else []
  | c :: t =>
    if startsWith (c :: t) pat then rep ++ (c :: t).drop pat.length
    else c :: replaceFirst pat rep t

/-- Rust `Vec::insert` (defined only up to index = length, the reachable
cases in the code). -/
def insertAt : Nat → α → List α → List α
  | 0, a, l => a :: l
  | _ + 1, _, [] => []
  | n + 1, a, c :: t => c :: insertAt n a t

/-- Substring test (Rust `str::contains`). -/
def containsSub (sub : List Char) : List Char → Bool
  | [] => startsWith [] sub
  | c :: t => startsWith (c :: t) sub || containsSub sub t

/-! ## Parser (`src/parser.rs`) -/

/-- Fields captured by `TASK_RE`:
`^(\s*)- \[([ x])\] ([a-z][a-z0-9]*)-(\d+) (.+)$`. -/
structure TaskLine where
  indent : List Char
  done : Bool
  tag : List Char
  number : Nat
  title : List Char
deriving DecidableEq, Repr

/-- `parse_task_line`: match `TASK_RE` and parse the number as `u64`
(`.parse().ok()?` fails on overflow).  The fixed characters of the pattern
are checked by explicit equality guards. -/
def parse_task_line (l : List Char) : Option TaskLine :=
  let indent := l.takeWhile isWsChar
  match l.dropWhile isWsChar with
  | c1 :: c2 :: c3 :: m :: c5 :: c6 :: rest =>
    if c1 = '-' ∧ c2 = ' ' ∧ c3 = '[' ∧ c5 = ']' ∧ c6 = ' ' ∧ (m = ' ' ∨ m = 'x') then
      match rest with
      | [] => none
      | t0 :: _ =>
        if isLowerCh t0 then
          match rest.dropWhile isTagCh with
          | c :: rest2 =>
            if c = '-' then
              if rest2.takeWhile isDigitCh = [] then none
              else if digitsVal (rest2.takeWhile isDigitCh) < 2 ^ 64 then
                match rest2.dropWhile isDigitCh with
                | c7 :: title =>
                  if c7 = ' ' ∧ title ≠ [] ∧ title.all (fun ch => ch ≠ '\n') then
                    some ⟨indent, m = 'x', rest.takeWhile isTagCh,
                      digitsVal (rest2.takeWhile isDigitCh), title⟩
                  else none
                | [] => none
              else none
            else none
          | [] => none
        else none
    else none
  | _ => none

/-- `is_section_header`: match `^### (.+)$` and return the trimmed date. -/
def is_section_header (l : List Char) : Option (List Char) :=
  match l with
  | '#' :: '#' :: '#' :: ' ' :: rest =>
    if rest ≠ [] ∧ rest.all (fun c => c ≠ '\n') then some (trimWs rest) else none
  | _ => none

/-- `is_note_line`: match `^(\s+)- (.+)$`, returning indent and text. -/
def is_note_line (l : List Char) : Option (List Char × List Char) :=
  let indent := l.takeWhile isWsChar
  if indent = [] then none
  else
    match l.dropWhile isWsChar with
    | c1 :: c2 :: rest =>
      if c1 = '-' ∧ c2 = ' ' ∧ rest ≠ [] ∧ rest.all (fun c => c ≠ '\n') then
        some (indent, rest)
      else none
    | _ => none

structure Note where
  line_number : Nat
  text : List Char
deriving DecidableEq, Repr

structure Task where
  line_number : Nat
  indent : List Char
  done : Bool
  tag : List Char
  number : Nat
  title : List Char
  notes : List Note
  date : List Char
deriving DecidableEq, Repr

/-- `Task::id`: `format!("{}-{}", tag, number)`. -/
def Task.id (t : Task) : List Char := t.tag ++ '-' :: natDigits t.number

structure Section where
  tasks : List Task
deriving DecidableEq, Repr

/-- Append a task to the last section (`sections.last_mut()`); a task
flushed while no section exists is dropped. -/
def pushTask : List Section → Task → List Section
  | [], _ => []
  | [s], t => [⟨s.tasks ++ [t]⟩]
  | s :: s2 :: rest, t => s :: pushTask (s2 :: rest) t

def pushOpt (secs : List Section) : Option Task → List Section
  | none => secs
  | some t => pushTask secs t

/-- Loop state of `parse_log`: accumulated sections, the open task, and the
current section date. -/
structure PState where
  sections : List Section
  cur : Option Task
  date : List Char
deriving Repr

/-- One iteration of the `parse_log` loop on the line with absolute index
`i`, with the classification priority of the source. -/
def step (i : Nat) (l : List Char) (st : PState) : PState :=
  match is_section_header l with
  | some d => ⟨pushOpt st.sections st.cur ++ [⟨[]⟩], none, d⟩
  | none =>
    match parse_task_line l with
    | some f =>
      ⟨pushOpt st.sections st.cur,
       some ⟨i, f.indent, f.done, f.tag, f.number, f.title, [], st.date⟩, st.date⟩
    | none =>
      match is_note_line l with
      | some (ind, txt) =>
        match st.cur with
        | some t =>
          if ind.length > t.indent.length then
            ⟨st.sections, some { t with notes := t.notes ++ [⟨i, txt⟩] }, st.date⟩
          else ⟨pushTask st.sections t, none, st.date⟩
        | none => st
      | none =>
        if l.all isWsChar then st
        else ⟨pushOpt st.sections st.cur, none, st.date⟩

def processLines : Nat → List (List Char) → PState → PState
  | _, [], st => st
  | i, l :: rest, st => processLines (i + 1) rest (step i l st)

/-- Start index of the scan window. -/
def windowStart (content : List Char) (scan_window : Nat) : Nat :=
  if (rlines content).length > scan_window then (rlines content).length - scan_window else 0

/-- The scanned trailing lines. -/
def windowLines (content : List Char) (scan_window : Nat) : List (List Char) :=
  (rlines content).drop (windowStart content scan_window)

/-- Final flush of `parse_log`. -/
def finalize (st : PState) : List Section := pushOpt st.sections st.cur

/-- `parse_log`: scan the last `scan_window` lines, preserving absolute
line numbers. -/
def parse_log (content : List Char) (scan_window : Nat) : List Section :=
  finalize (processLines (windowStart content scan_window)
    (windowLines content scan_window) ⟨[], none, []⟩)

/-- All tasks of a section list, in encounter order. -/
def allTasks (secs : List Section) : List Task :=
  secs.foldr (fun s acc => s.tasks ++ acc) []

inductive TlError where
  | ParseErr : List Char → TlError
  | TaskNotFound : List Char → TlError
  | DuplicateId : List Char → TlError
  | NotInit : TlError
  | Other : List Char → TlError
deriving DecidableEq, Repr

/-- `find_task`: collect the tasks whose id matches; zero matches is
not-found, two or more is a duplicate error. -/
def find_task (secs : List Section) (id : List Char) : Except TlError Task :=
  match (allTasks secs).filter (fun t => t.id == id) with
  | [] => .error (.TaskNotFound id)
  | [t] => .ok t
  | _ :: _ :: _ => .error (.DuplicateId id)

/-- `find_last_section` on the lines of the content: index and date of the
last header (the source iterates the enumerated lines in reverse). -/
def lastHeaderAux : List (List Char) → Option (Nat × List Char)
  | [] => none
  | l :: t =>
    match lastHeaderAux t with
    | some (i, d) => some (i + 1, d)
    | none =>
      match is_section_header l with
      | some d => some (0, d)
      | none => none

def find_last_section (content : List Char) : Option (Nat × List Char) :=
  lastHeaderAux (rlines content)

/-- Index of the first header in a line list, if any. -/
def firstHeaderIdx : List (List Char) → Option Nat
  | [] => none
  | l :: t =>
    if (is_section_header l).isSome then some 0
    else (firstHeaderIdx t).map (· + 1)

/-- `find_section_end`: first header line strictly after `section_line`,
or the number of lines. -/
def find_section_end (content : List Char) (section_line : Nat) : Nat :=
  match firstHeaderIdx ((rlines content).drop (section_line + 1)) with
  | some j => section_line + 1 + j
  | none => (rlines content).length

/-- Last line index whose header date equals `today` (the source scans
forward, overwriting the candidate, which keeps the last match). -/
def lastTodayAux (today : List Char) : List (List Char) → Option Nat
  | [] => none
  | l :: t =>
    match lastTodayAux today t with
    | some i => some (i + 1)
    | none => if is_section_header l = some today then some 0 else none

/-- `get_today_section_text`: the raw text of today's section, from the
last header dated `today` up to (excluding) the next header or EOF. -/
def get_today_section_text (today content : List Char) : Option (List Char) :=
  match lastTodayAux today (rlines content) with
  | none => none
  | some s =>
    some (joinNl (((rlines content).drop s).take (find_section_end content s - s)))

/-- Lowercase a character list (`str::to_lowercase`, ASCII fragment). -/
def lcs (l : List Char) : List Char := l.map Char.toLower

/-- The match predicate of `search_tasks`: case-insensitive substring match
against title, any note text, tag, and composed id. -/
def matchesQuery (q : List Char) (t : Task) : Bool :=
  let ql := lcs q
  containsSub ql (lcs t.title) || t.notes.any (fun n => containsSub ql (lcs n.text)) ||
    containsSub ql (lcs t.tag) || containsSub ql (lcs t.id)

/-- `search_tasks`: all matching tasks in encounter order. -/
def search_tasks (secs : List Section) (q : List Char) : List Task :=
  (allTasks secs).filter (matchesQuery q)

/-- Maximum task number for a tag among the parsed sections
(`max().unwrap_or(0)` in `add_task`). -/
def maxTagNum (secs : List Section) (tag : List Char) : Nat :=
  ((allTasks secs).filter (fun t => t.tag == tag)).foldr (fun t m => Nat.max t.number m) 0

/-! ## Counter store (`src/state.rs`)

The persisted map of tag to highest assigned number, modelled as an
association list (numbers as unbounded naturals). -/

abbrev StMap := List (List Char × Nat)

def lookupTag : StMap → List Char → Option Nat
  | [], _ => none
  | (k, v) :: rest, tag => if k = tag then some v else lookupTag rest tag

def setTag : StMap → List Char → Nat → StMap
  | [], tag, v => [(tag, v)]
  | (k, w) :: rest, tag, v =>
    if k = tag then (k, v) :: rest else (k, w) :: setTag rest tag v

/-- `State::sync_min`: `entry(tag).or_insert(0)`, then raise to `min` if
currently lower. -/
def sync_min (st : StMap) (tag : List Char) (min : Nat) : StMap :=
  match lookupTag st tag with
  | none => setTag st tag min
  | some v => if v < min then setTag st tag min else st

/-- `State::next_id`: `entry(tag).or_insert(0)`, then the `u64` increment
`*counter += 1` — which wraps around at `2 ^ 64` (release-build semantics) —
returning the new value together with the updated store. -/
def next_id (st : StMap) (tag : List Char) : Nat × StMap :=
  match lookupTag st tag with
  | none => (1 % 2 ^ 64, setTag st tag (1 % 2 ^ 64))
  | some v => ((v + 1) % 2 ^ 64, setTag st tag ((v + 1) % 2 ^ 64))

/-- The numbers issued by `n` successive `next_id` calls for one tag. -/
def allocs (st : StMap) (tag : List Char) : Nat → List Nat
  | 0 => []
  | n + 1 =>
    let p := next_id st tag
    p.1 :: allocs p.2 tag n

/-! ## Mutation engine (`src/writer.rs`)

The operations are modelled as pure functions of the log content, with the
clock (`today`, `stamp`), the configuration fields (`scan_window_lines`,
`note_indent`) and the counter store passed explicitly.  Each mutating
operation returns the content it writes atomically (and the saved store);
on error nothing is written. -/

/-- The line `### <today>`. -/
def hdrLine (today : List Char) : List Char := '#' :: '#' :: '#' :: ' ' :: today

/-- The append path of `ensure_today_section`: normalize a trailing
newline, then push `'\n'` and the header line. -/
def appendTodayHeader (today content : List Char) : List Char :=
  (if content ≠ [] ∧ content.getLast? ≠ some '\n' then content ++ ['\n'] else content) ++
    '\n' :: (hdrLine today ++ ['\n'])

/-- `ensure_today_section`: unchanged when the last header is dated today,
otherwise append a fresh today header. -/
def ensure_today_section (today content : List Char) : List Char :=
  match find_last_section content with
  | some (_, d) => if d = today then content else appendTodayHeader today content
  | none => appendTodayHeader today content

/-- `add_task`: validate the tag, ensure a today section, reconcile the
counter with the scanned window, allocate the id, and insert the new task
line at the end of the last section.  Returns the id, the written content
and the saved store. -/
def add_task (today : List Char) (scan_window : Nat) (st : StMap)
    (content tag title : List Char) : Except TlError (List Char × List Char × StMap) :=
  if ¬ tag.all isTagCh ∨ tag = [] then
    .error (.ParseErr "tag must be lowercase alphanumeric".data)
  else
    let c1 := ensure_today_section today content
    let secs := parse_log c1 scan_window
    let max_in_log := maxTagNum secs tag
    let st1 := sync_min st tag max_in_log
    let p := next_id st1 tag
    let id := tag ++ '-' :: natDigits p.1
    match find_last_section c1 with
    | none => .error (.Other "no section found in log".data)
    | some (section_line, _) =>
      let section_end := find_section_end c1 section_line
      let task_line := '-' :: ' ' :: '[' :: ' ' :: ']' :: ' ' :: (id ++ ' ' :: title)
      let lines := rlines c1
      let lines2 :=
        if section_end ≥ lines.length then lines ++ [task_line]
        else insertAt section_end task_line lines
      .ok (id, unlines lines2, p.2)

/-- `complete_task`: look the task up; fail if already done; otherwise
replace the first `[ ]` on its line by `[x]` and append ` (<stamp>)`. -/
def complete_task (stamp : List Char) (scan_window : Nat)
    (content id : List Char) : Except TlError (List Char) :=
  match find_task (parse_log content scan_window) id with
  | .error e => .error e
  | .ok task =>
    if task.done then
      .error (.Other ("task ".data ++ id ++ " is already done".data))
    else
      let lines := rlines content
      let old := lines.getD task.line_number []
      let newLine :=
        replaceFirst ['[', ' ', ']'] ['[', 'x', ']'] old ++ ' ' :: '(' :: (stamp ++ [')'])
      .ok (unlines (lines.set task.line_number newLine))

/-- The content of the log after a `complete_task` call: unchanged when
the operation fails (the atomic write never happens). -/
def runComplete (stamp : List Char) (scan_window : Nat)
    (content id : List Char) : List Char :=
  match complete_task stamp scan_window content id with
  | .ok c => c
  | .error _ => content

/-- `add_note`: look the task up, insert
`<note_indent spaces>- [<stamp>] <text>` after its last note (or after the
task line itself). -/
def add_note (stamp : List Char) (scan_window note_indent : Nat)
    (content id text : List Char) : Except TlError (List Char) :=
  match find_task (parse_log content scan_window) id with
  | .error e => .error e
  | .ok task =>
    let insert_after :=
      match task.notes.getLast? with
      | none => task.line_number
      | some n => n.line_number
    let note_line :=
      List.replicate note_indent ' ' ++ '-' :: ' ' :: '[' :: (stamp ++ ']' :: ' ' :: text)
    .ok (unlines (insertAt (insert_after + 1) note_line (rlines content)))

/-- `get_today`: today's section text, or an error when no header is dated
today. -/
def get_today (today content : List Char) : Except TlError (List Char) :=
  match get_today_section_text today content with
  | some s => .ok s
  | none => .error (.Other "no section for today found".data)

/-! ## Lemmas about line splitting and joining -/

theorem splitNl_ne_nil (cs : List Char) : splitNl cs ≠ [] := by
  induction cs with
  | nil => simp [splitNl]
  | cons c cs ih =>
    simp only [splitNl]
    split
    · simp
    · cases h : splitNl cs with
      | nil => simp
      | cons l ls => simp

theorem splitNl_no_nl (cs : List Char) : ∀ x ∈ splitNl cs, '\n' ∉ x := by
  induction cs with
  | nil => simp [splitNl]
  | cons c cs ih =>
    simp only [splitNl]
    split
    · intro x hx
      rcases List.mem_cons.mp hx with h | h
      · simp [h]
      · exact ih x h
    · rename_i hc
      cases h : splitNl cs with
      | nil => exact absurd h (splitNl_ne_nil cs)
      | cons l ls =>
        intro x hx
        rcases List.mem_cons.mp hx with h' | h'
        · subst h'
          intro hmem
          rcases List.mem_cons.mp hmem with h'' | h''
          · exact hc h''.symm
          · exact ih l (h ▸ List.mem_cons_self l ls) h''
        · exact ih x (h ▸ List.mem_cons_of_mem l h')

theorem splitNl_of_no_nl (l : List Char) (h : '\n' ∉ l) : splitNl l = [l] := by
  induction l with
  | nil => simp [splitNl]
  | cons c cs ih =>
    simp only [List.mem_cons, not_or] at h
    simp only [splitNl]
    rw [if_neg (fun hc => h.1 hc.symm), ih h.2]

theorem splitNl_append_cons (a b : List Char) (h : '\n' ∉ a) :
    splitNl (a ++ '\n' :: b) = a :: splitNl b := by
  induction a with
  | nil => simp [splitNl]
  | cons c cs ih =>
    simp only [List.mem_cons, not_or] at h
    simp only [List.cons_append, splitNl, List.append_eq]
    rw [if_neg (fun hc => h.1 hc.symm), ih h.2]

theorem splitNl_concat_nl (c : List Char) :
    splitNl (c ++ ['\n']) = splitNl c ++ [[]] := by
  induction c with
  | nil => simp [splitNl]
  | cons x xs ih =>
    simp only [List.cons_append, splitNl, List.append_eq]
    split
    · rw [ih]
      simp
    · rw [ih]
      cases h : splitNl xs with
      | nil => exact absurd h (splitNl_ne_nil xs)
      | cons l ls => simp

theorem splitNl_joinNl (ls : List (List Char)) (hne : ls ≠ [])
    (hnl : ∀ x ∈ ls, '\n' ∉ x) : splitNl (joinNl ls) = ls := by
  induction ls with
  | nil => exact absurd rfl hne
  | cons l rest ih =>
    cases rest with
    | nil => exact splitNl_of_no_nl l (hnl l (List.mem_cons_self l []))
    | cons l2 rest2 =>
      simp only [joinNl]
      rw [splitNl_append_cons _ _ (hnl l (List.mem_cons_self _ _))]
      rw [ih (by simp) (fun x hx => hnl x (List.mem_cons_of_mem l hx))]

theorem getLast?_cons_eq [DecidableEq α] (a : α) (l : List α) :
    (a :: l).getLast? = if l = [] then some a else l.getLast? := by
  cases l with
  | nil => simp
  | cons b t => simp [List.getLast?_cons_cons]

theorem joinNl_getLast_nl (ls : List (List Char)) (hnl : ∀ x ∈ ls, '\n' ∉ x) :
    ((joinNl ls).getLast? = some '\n' ↔ ls.getLast? = some [] ∧ 2 ≤ ls.length) := by
  induction ls with
  | nil => simp [joinNl]
  | cons l rest ih =>
    cases rest with
    | nil =>
      simp only [joinNl, List.getLast?_singleton, List.length_cons, List.length_nil]
      constructor
      · intro h
        exfalso
        exact (hnl l (List.mem_cons_self l [])) (List.mem_of_getLast?_eq_some h)
      · rintro ⟨-, h2⟩
        omega
    | cons l2 rest2 =>
      have hnl2 : ∀ x ∈ l2 :: rest2, '\n' ∉ x :=
        fun x hx => hnl x (List.mem_cons_of_mem l hx)
      have ih2 := ih hnl2
      show ((l ++ '\n' :: joinNl (l2 :: rest2)).getLast? = some '\n') ↔ _
      rw [List.getLast?_append_cons, getLast?_cons_eq]
      by_cases hj : joinNl (l2 :: rest2) = []
      · have hsingle : l2 :: rest2 = [[]] := by
          have h := splitNl_joinNl (l2 :: rest2) (by simp) hnl2
          rw [hj] at h
          simp only [splitNl] at h
          exact h.symm
        rcases List.cons_eq_cons.mp hsingle with ⟨he1, he2⟩
        subst he1
        subst he2
        rw [if_pos hj]
        simp
      · rw [if_neg hj, ih2, List.getLast?_cons_cons]
        constructor
        · rintro ⟨h1, -⟩
          refine ⟨h1, ?_⟩
          simp only [List.length_cons]
          omega
        · rintro ⟨h1, -⟩
          refine ⟨h1, ?_⟩
          cases rest2 with
          | nil =>
            exfalso
            simp at h1
            exact hj (by simp [joinNl, h1])
          | cons r rs =>
            simp only [List.length_cons]
            omega

/-- Dropping a single trailing empty line, for line lists of length at
least two (what the rejoin step can do to the line structure). -/
def normTrail (ls : List (List Char)) : List (List Char) :=
  if ls.getLast? = some [] ∧ 2 ≤ ls.length then ls.dropLast else ls

theorem rlines_unlines (ls : List (List Char)) (hne : ls ≠ [])
    (hnl : ∀ x ∈ ls, '\n' ∉ x) : rlines (unlines ls) = normTrail ls := by
  unfold unlines normTrail
  by_cases hc : (joinNl ls).getLast? = some '\n'
  · rw [if_pos hc]
    rcases (joinNl_getLast_nl ls hnl).mp hc with ⟨ha, hb⟩
    unfold rlines
    rw [splitNl_joinNl ls hne hnl, if_pos ha, if_pos ⟨ha, hb⟩]
  · rw [if_neg hc]
    unfold rlines
    rw [splitNl_concat_nl, splitNl_joinNl ls hne hnl]
    rw [if_pos (List.getLast?_concat ls), List.dropLast_concat]
    rw [if_neg (fun hcond => hc ((joinNl_getLast_nl ls hnl).mpr hcond))]

theorem rlines_no_nl (cs : List Char) : ∀ x ∈ rlines cs, '\n' ∉ x := by
  intro x hx
  unfold rlines at hx
  split at hx
  · exact splitNl_no_nl cs x (List.dropLast_subset _ hx)
  · exact splitNl_no_nl cs x hx

/-- Appending one further line (the common add path). -/
theorem rlines_unlines_concat (ls : List (List Char)) (x : List Char)
    (hx : x ≠ []) (hxnl : '\n' ∉ x) (hnl : ∀ y ∈ ls, '\n' ∉ y) :
    rlines (unlines (ls ++ [x])) = ls ++ [x] := by
  rw [rlines_unlines (ls ++ [x]) (by simp)
    (by intro y hy; rcases List.mem_append.mp hy with h | h
        · exact hnl y h
        · simp at h; subst h; exact hxnl)]
  unfold normTrail
  rw [if_neg]
  intro ⟨ha, _⟩
  simp at ha
  exact hx ha

/-! ## Decimal digits -/

theorem digitsVal_append (a b : List Char) :
    digitsVal (a ++ b) = b.foldl (fun n c => n * 10 + (c.toNat - 48)) (digitsVal a) := by
  unfold digitsVal
  rw [List.foldl_append]

theorem digitCh_toNat {n : Nat} (h : n < 10) : (digitCh n).toNat = 48 + n := by
  interval_cases n <;> decide

theorem isDigitCh_digitCh {n : Nat} (h : n < 10) : isDigitCh (digitCh n) = true := by
  interval_cases n <;> decide

theorem natDigitsAux_val (fuel n : Nat) (h : n ≤ fuel) :
    digitsVal (natDigitsAux fuel n) = n := by
  induction fuel using Nat.strong_induction_on generalizing n with
  | _ fuel ih =>
    cases fuel with
    | zero =>
      interval_cases n
      rfl
    | succ f =>
      unfold natDigitsAux
      by_cases hn : n < 10
      · rw [if_pos hn]
        simp only [digitsVal, List.foldl_cons, List.foldl_nil, Nat.zero_mul, Nat.zero_add]
        rw [digitCh_toNat hn]
        omega
      · rw [if_neg hn]
        rw [digitsVal_append]
        rw [ih f (by omega) (n / 10) (by omega)]
        simp only [List.foldl_cons, List.foldl_nil]
        rw [digitCh_toNat (Nat.mod_lt n (by omega))]
        omega

theorem digitsVal_natDigits (n : Nat) : digitsVal (natDigits n) = n :=
  natDigitsAux_val n n le_rfl

theorem natDigits_inj {m n : Nat} (h : natDigits m = natDigits n) : m = n := by
  have := digitsVal_natDigits m
  rw [h, digitsVal_natDigits] at this
  exact this.symm

theorem natDigitsAux_ne_nil (fuel n : Nat) : natDigitsAux fuel n ≠ [] := by
  cases fuel with
  | zero => simp [natDigitsAux]
  | succ f =>
    unfold natDigitsAux
    split
    · simp
    · simp

theorem natDigits_ne_nil (n : Nat) : natDigits n ≠ [] := natDigitsAux_ne_nil n n

theorem natDigitsAux_digits (fuel n : Nat) :
    ∀ c ∈ natDigitsAux fuel n, n < 10 * (fuel + 1) → isDigitCh c = true := by
  induction fuel using Nat.strong_induction_on generalizing n with
  | _ fuel ih =>
    cases fuel with
    | zero =>
      intro c hc hlt
      simp [natDigitsAux] at hc
      subst hc
      exact isDigitCh_digitCh (by omega)
    | succ f =>
      intro c hc hlt
      unfold natDigitsAux at hc
      split at hc
      · rename_i hn
        simp at hc
        subst hc
        exact isDigitCh_digitCh hn
      · rcases List.mem_append.mp hc with h | h
        · exact ih f (by omega) (n / 10) c h (by omega)
        · simp at h
          subst h
          exact isDigitCh_digitCh (Nat.mod_lt n (by omega))

theorem natDigits_digits (n : Nat) : ∀ c ∈ natDigits n, isDigitCh c = true := by
  intro c hc
  exact natDigitsAux_digits n n c hc (by omega)

/-! ## takeWhile / dropWhile over append -/

theorem takeWhile_append_all {p : Char → Bool} (a l : List Char)
    (h : ∀ x ∈ a, p x = true) : (a ++ l).takeWhile p = a ++ l.takeWhile p := by
  induction a with
  | nil => simp
  | cons c cs ih =>
    simp only [List.cons_append, List.takeWhile_cons]
    rw [h c (List.mem_cons_self c cs), ih (fun x hx => h x (List.mem_cons_of_mem c hx))]
    simp

theorem dropWhile_append_all {p : Char → Bool} (a l : List Char)
    (h : ∀ x ∈ a, p x = true) : (a ++ l).dropWhile p = l.dropWhile p := by
  induction a with
  | nil => simp
  | cons c cs ih =>
    simp only [List.cons_append, List.dropWhile_cons]
    rw [h c (List.mem_cons_self c cs)]
    simp only [if_true]
    exact ih (fun x hx => h x (List.mem_cons_of_mem c hx))

theorem insertAt_length (x : α) (l : List α) : insertAt l.length x l = l ++ [x] := by
  induction l with
  | nil => rfl
  | cons c t ih => simp [insertAt, ih]

/-! ## Parser fold lemmas -/

/-- The sections produced by parsing a line list from state `st`. -/
def parseFrom (i : Nat) (ls : List (List Char)) (st : PState) : List Section :=
  finalize (processLines i ls st)

theorem parse_log_eq_parseFrom (content : List Char) (w : Nat) :
    parse_log content w =
      parseFrom (windowStart content w) (windowLines content w) ⟨[], none, []⟩ := rfl

theorem processLines_append (a b : List (List Char)) (i : Nat) (st : PState) :
    processLines i (a ++ b) st = processLines (i + a.length) b (processLines i a st) := by
  induction a generalizing i st with
  | nil => simp [processLines]
  | cons l rest ih =>
    simp only [List.cons_append, processLines, List.length_cons, List.append_eq]
    rw [ih]
    congr 1
    omega

theorem step_header (i : Nat) (l : List Char) (st : PState) (d : List Char)
    (h : is_section_header l = some d) :
    step i l st = ⟨pushOpt st.sections st.cur ++ [⟨[]⟩], none, d⟩ := by
  unfold step
  rw [h]

theorem step_task (i : Nat) (l : List Char) (st : PState) (f : TaskLine)
    (h1 : is_section_header l = none) (h2 : parse_task_line l = some f) :
    step i l st = ⟨pushOpt st.sections st.cur,
      some ⟨i, f.indent, f.done, f.tag, f.number, f.title, [], st.date⟩, st.date⟩ := by
  unfold step
  rw [h1, h2]

theorem step_note_attach (i : Nat) (l : List Char) (st : PState) (ind txt : List Char)
    (t : Task) (h1 : is_section_header l = none) (h2 : parse_task_line l = none)
    (h3 : is_note_line l = some (ind, txt)) (h4 : st.cur = some t)
    (h5 : ind.length > t.indent.length) :
    step i l st = ⟨st.sections, some { t with notes := t.notes ++ [⟨i, txt⟩] }, st.date⟩ := by
  simp only [step, h1, h2, h3, h4]
  rw [if_pos h5]

theorem step_note_flush (i : Nat) (l : List Char) (st : PState) (ind txt : List Char)
    (t : Task) (h1 : is_section_header l = none) (h2 : parse_task_line l = none)
    (h3 : is_note_line l = some (ind, txt)) (h4 : st.cur = some t)
    (h5 : ¬ ind.length > t.indent.length) :
    step i l st = ⟨pushTask st.sections t, none, st.date⟩ := by
  simp only [step, h1, h2, h3, h4]
  rw [if_neg h5]

theorem step_note_nocur (i : Nat) (l : List Char) (st : PState) (ind txt : List Char)
    (h1 : is_section_header l = none) (h2 : parse_task_line l = none)
    (h3 : is_note_line l = some (ind, txt)) (h4 : st.cur = none) :
    step i l st = st := by
  unfold step
  rw [h1, h2, h3, h4]

theorem step_blank (i : Nat) (l : List Char) (st : PState)
    (h1 : is_section_header l = none) (h2 : parse_task_line l = none)
    (h3 : is_note_line l = none) (h4 : l.all isWsChar = true) :
    step i l st = st := by
  unfold step
  rw [h1, h2, h3, if_pos h4]

theorem step_other (i : Nat) (l : List Char) (st : PState)
    (h1 : is_section_header l = none) (h2 : parse_task_line l = none)
    (h3 : is_note_line l = none) (h4 : ¬ l.all isWsChar = true) :
    step i l st = ⟨pushOpt st.sections st.cur, none, st.date⟩ := by
  unfold step
  rw [h1, h2, h3, if_neg h4]

theorem allTasks_foldr (secs : List Section) (x : List Task) :
    secs.foldr (fun s acc => s.tasks ++ acc) x = allTasks secs ++ x := by
  induction secs with
  | nil => simp [allTasks]
  | cons s rest ih => simp [allTasks, ih]

theorem allTasks_append (s1 s2 : List Section) :
    allTasks (s1 ++ s2) = allTasks s1 ++ allTasks s2 := by
  unfold allTasks
  rw [List.foldr_append, allTasks_foldr]
  rfl

theorem allTasks_cons (s : Section) (rest : List Section) :
    allTasks (s :: rest) = s.tasks ++ allTasks rest := by
  simp [allTasks]

theorem pushTask_length (secs : List Section) (t : Task) :
    (pushTask secs t).length = secs.length := by
  induction secs with
  | nil => rfl
  | cons s rest ih =>
    cases rest with
    | nil => rfl
    | cons s2 rest2 => simp [pushTask, ih]

theorem pushOpt_length (secs : List Section) (o : Option Task) :
    (pushOpt secs o).length = secs.length := by
  cases o with
  | none => rfl
  | some t => exact pushTask_length secs t

theorem pushTask_ne_nil (secs : List Section) (t : Task) (h : secs ≠ []) :
    pushTask secs t ≠ [] := by
  intro hc
  have := pushTask_length secs t
  rw [hc] at this
  simp at this
  exact h (List.eq_nil_of_length_eq_zero this.symm)

theorem pushOpt_ne_nil (secs : List Section) (o : Option Task) (h : secs ≠ []) :
    pushOpt secs o ≠ [] := by
  cases o with
  | none => exact h
  | some t => exact pushTask_ne_nil secs t h

theorem allTasks_pushTask (secs : List Section) (t : Task) (h : secs ≠ []) :
    allTasks (pushTask secs t) = allTasks secs ++ [t] := by
  induction secs with
  | nil => exact absurd rfl h
  | cons s rest ih =>
    cases rest with
    | nil => simp [pushTask, allTasks]
    | cons s2 rest2 =>
      simp only [pushTask, allTasks_cons, ih (by simp)]
      simp

theorem mem_allTasks_pushTask {secs : List Section} {t u : Task}
    (h : u ∈ allTasks (pushTask secs t)) : u ∈ allTasks secs ∨ u = t := by
  induction secs with
  | nil => simp [pushTask, allTasks] at h
  | cons s rest ih =>
    cases rest with
    | nil =>
      simp [pushTask, allTasks] at h ⊢
      exact h
    | cons s2 rest2 =>
      simp only [pushTask, allTasks_cons] at h
      rw [allTasks_cons]
      rcases List.mem_append.mp h with h | h
      · exact .inl (List.mem_append.mpr (.inl h))
      · rcases ih h with h2 | h2
        · exact .inl (List.mem_append.mpr (.inr h2))
        · exact .inr h2

theorem mem_allTasks_pushTask_left {secs : List Section} {t u : Task}
    (h : u ∈ allTasks secs) : u ∈ allTasks (pushTask secs t) := by
  induction secs with
  | nil => simp [allTasks] at h
  | cons s rest ih =>
    cases rest with
    | nil =>
      simp [pushTask, allTasks] at h ⊢
      exact .inl h
    | cons s2 rest2 =>
      simp only [pushTask, allTasks_cons] at h ⊢
      rcases List.mem_append.mp h with h | h
      · exact List.mem_append.mpr (.inl h)
      · exact List.mem_append.mpr (.inr (ih h))

theorem mem_allTasks_pushOpt {secs : List Section} {o : Option Task} {u : Task}
    (h : u ∈ allTasks (pushOpt secs o)) :
    u ∈ allTasks secs ∨ ∃ t, o = some t ∧ u = t := by
  cases o with
  | none => exact .inl h
  | some t =>
    rcases mem_allTasks_pushTask h with h | h
    · exact .inl h
    · exact .inr ⟨t, rfl, h⟩

theorem mem_allTasks_pushOpt_left {secs : List Section} {o : Option Task} {u : Task}
    (h : u ∈ allTasks secs) : u ∈ allTasks (pushOpt secs o) := by
  cases o with
  | none => exact h
  | some t => exact mem_allTasks_pushTask_left h

theorem pushOpt_nil (o : Option Task) : pushOpt [] o = [] := by
  cases o <;> rfl

theorem parseFrom_cons (i : Nat) (l : List Char) (ls : List (List Char)) (st : PState) :
    parseFrom i (l :: ls) st = parseFrom (i + 1) ls (step i l st) := rfl

theorem parseFrom_append (i : Nat) (a b : List (List Char)) (st : PState) :
    parseFrom i (a ++ b) st = parseFrom (i + a.length) b (processLines i a st) := by
  unfold parseFrom
  rw [processLines_append]

theorem mem_pushOpt_case {st : PState} {u : Task}
    (h : u ∈ allTasks (pushOpt st.sections st.cur)) :
    u ∈ allTasks st.sections ∨
      ∃ t0, st.cur = some t0 ∧ u.line_number = t0.line_number := by
  rcases mem_allTasks_pushOpt h with h | ⟨t0, hc, he⟩
  · exact .inl h
  · exact .inr ⟨t0, hc, by rw [he]⟩

/-- Every task in the parse output comes from the initial sections, shares
a line number with the initially open task, or was created at one of the
processed line indices. -/
theorem parseFrom_line_numbers (ls : List (List Char)) :
    ∀ (i : Nat) (st : PState) (t : Task), t ∈ allTasks (parseFrom i ls st) →
      t ∈ allTasks st.sections ∨
        (∃ t0, st.cur = some t0 ∧ t.line_number = t0.line_number) ∨
        (i ≤ t.line_number ∧ t.line_number < i + ls.length) := by
  induction ls with
  | nil =>
    intro i st t h
    rcases mem_pushOpt_case h with h | h
    · exact .inl h
    · exact .inr (.inl h)
  | cons l rest ih =>
    intro i st t h
    rw [parseFrom_cons] at h
    have hres := ih (i + 1) (step i l st) t h
    cases hh : is_section_header l with
    | some d =>
      rw [step_header i l st d hh] at hres
      rcases hres with h1 | ⟨t1, hcc, he⟩ | ⟨h1, h2⟩
      · rw [allTasks_append] at h1
        rcases List.mem_append.mp h1 with h1 | h1
        · rcases mem_pushOpt_case h1 with h1 | h1
          · exact .inl h1
          · exact .inr (.inl h1)
        · simp [allTasks] at h1
      · simp at hcc
      · refine .inr (.inr ⟨by omega, ?_⟩)
        simp only [List.length_cons]
        omega
    | none =>
      cases ht : parse_task_line l with
      | some f =>
        rw [step_task i l st f hh ht] at hres
        rcases hres with h1 | ⟨t1, hcc, he⟩ | ⟨h1, h2⟩
        · rcases mem_pushOpt_case h1 with h1 | h1
          · exact .inl h1
          · exact .inr (.inl h1)
        · simp only [Option.some.injEq] at hcc
          refine .inr (.inr ⟨?_, ?_⟩)
          · rw [he, ← hcc]
          · rw [he, ← hcc]
            simp only [List.length_cons]
            omega
        · refine .inr (.inr ⟨by omega, ?_⟩)
          simp only [List.length_cons]
          omega
      | none =>
        cases hn : is_note_line l with
        | some p =>
          obtain ⟨ind, txt⟩ := p
          cases hc0 : st.cur with
          | some t0 =>
            by_cases hlen : ind.length > t0.indent.length
            · rw [step_note_attach i l st ind txt t0 hh ht hn hc0 hlen] at hres
              rcases hres with h1 | ⟨t1, hcc, he⟩ | ⟨h1, h2⟩
              · exact .inl h1
              · simp only [Option.some.injEq] at hcc
                exact .inr (.inl ⟨t0, rfl, by rw [he, ← hcc]⟩)
              · refine .inr (.inr ⟨by omega, ?_⟩)
                simp only [List.length_cons]
                omega
            · rw [step_note_flush i l st ind txt t0 hh ht hn hc0 hlen] at hres
              rcases hres with h1 | ⟨t1, hcc, he⟩ | ⟨h1, h2⟩
              · rcases mem_allTasks_pushTask h1 with h1 | h1
                · exact .inl h1
                · exact .inr (.inl ⟨t0, rfl, by rw [h1]⟩)
              · simp at hcc
              · refine .inr (.inr ⟨by omega, ?_⟩)
                simp only [List.length_cons]
                omega
          | none =>
            rw [step_note_nocur i l st ind txt hh ht hn hc0] at hres
            rcases hres with h1 | ⟨t1, hcc, he⟩ | ⟨h1, h2⟩
            · exact .inl h1
            · rw [hc0] at hcc
              simp at hcc
            · refine .inr (.inr ⟨by omega, ?_⟩)
              simp only [List.length_cons]
              omega
        | none =>
          by_cases hb : l.all isWsChar
          · rw [step_blank i l st hh ht hn hb] at hres
            rcases hres with h1 | h1 | ⟨h1, h2⟩
            · exact .inl h1
            · exact .inr (.inl h1)
            · refine .inr (.inr ⟨by omega, ?_⟩)
              simp only [List.length_cons]
              omega
          · rw [step_other i l st hh ht hn hb] at hres
            rcases hres with h1 | ⟨t1, hcc, he⟩ | ⟨h1, h2⟩
            · rcases mem_pushOpt_case h1 with h1 | h1
              · exact .inl h1
              · exact .inr (.inl h1)
            · simp at hcc
            · refine .inr (.inr ⟨by omega, ?_⟩)
              simp only [List.length_cons]
              omega

/-- A task that is open while no section has been produced yet is dropped:
no task of the output carries its line number, provided all later lines
have larger indices. -/
theorem parseFrom_drop_cur (ls : List (List Char)) :
    ∀ (i : Nat) (st : PState) (t0 : Task), st.sections = [] → st.cur = some t0 →
      t0.line_number < i →
      ∀ t ∈ allTasks (parseFrom i ls st), t.line_number ≠ t0.line_number := by
  induction ls with
  | nil =>
    intro i st t0 hs hc hlt t h
    unfold parseFrom finalize processLines at h
    rw [hs, hc] at h
    simp [pushOpt, pushTask, allTasks] at h
  | cons l rest ih =>
    intro i st t0 hs hc hlt t h
    rw [parseFrom_cons] at h
    cases hh : is_section_header l with
    | some d =>
      rw [step_header i l st d hh] at h
      rcases parseFrom_line_numbers rest (i + 1) _ t h with h1 | ⟨t1, hcc, he⟩ | ⟨h1, h2⟩
      · rw [allTasks_append] at h1
        rcases List.mem_append.mp h1 with h1 | h1
        · rw [hs, hc] at h1
          simp [pushOpt, pushTask, allTasks] at h1
        · simp [allTasks] at h1
      · simp at hcc
      · omega
    | none =>
      cases ht : parse_task_line l with
      | some f =>
        rw [step_task i l st f hh ht] at h
        rcases parseFrom_line_numbers rest (i + 1) _ t h with h1 | ⟨t1, hcc, he⟩ | ⟨h1, h2⟩
        · rw [hs, hc] at h1
          simp [pushOpt, pushTask, allTasks] at h1
        · simp only [Option.some.injEq] at hcc
          rw [he, ← hcc]
          show i ≠ t0.line_number
          omega
        · omega
      | none =>
        cases hn : is_note_line l with
        | some p =>
          obtain ⟨ind, txt⟩ := p
          by_cases hlen : ind.length > t0.indent.length
          · rw [step_note_attach i l st ind txt t0 hh ht hn hc hlen] at h
            exact ih (i + 1)
              ⟨st.sections, some { t0 with notes := t0.notes ++ [⟨i, txt⟩] }, st.date⟩
              { t0 with notes := t0.notes ++ [⟨i, txt⟩] } hs rfl
              (by show t0.line_number < i + 1; omega) t h
          · rw [step_note_flush i l st ind txt t0 hh ht hn hc hlen] at h
            rcases parseFrom_line_numbers rest (i + 1) _ t h with h1 | ⟨t1, hcc, he⟩ | ⟨h1, h2⟩
            · rw [hs] at h1
              simp [pushTask, allTasks] at h1
            · simp at hcc
            · omega
        | none =>
          by_cases hb : l.all isWsChar
          · rw [step_blank i l st hh ht hn hb] at h
            exact ih (i + 1) st t0 hs hc (by omega) t h
          · rw [step_other i l st hh ht hn hb] at h
            rcases parseFrom_line_numbers rest (i + 1) _ t h with h1 | ⟨t1, hcc, he⟩ | ⟨h1, h2⟩
            · rw [hs, hc] at h1
              simp [pushOpt, pushTask, allTasks] at h1
            · simp at hcc
            · omega

/-- While no header has been seen, no section exists. -/
theorem processLines_sections_nil (ls : List (List Char))
    (hnh : ∀ l ∈ ls, is_section_header l = none) :
    ∀ (i : Nat) (st : PState), st.sections = [] →
      (processLines i ls st).sections = [] := by
  induction ls with
  | nil =>
    intro i st h
    exact h
  | cons l rest ih =>
    intro i st h
    simp only [processLines]
    apply ih (fun x hx => hnh x (List.mem_cons_of_mem l hx))
    have hh := hnh l (List.mem_cons_self l rest)
    cases ht : parse_task_line l with
    | some f =>
      rw [step_task i l st f hh ht]
      show pushOpt st.sections st.cur = []
      rw [h, pushOpt_nil]
    | none =>
      cases hn : is_note_line l with
      | some p =>
        obtain ⟨ind, txt⟩ := p
        cases hc : st.cur with
        | some t0 =>
          by_cases hlen : ind.length > t0.indent.length
          · rw [step_note_attach i l st ind txt t0 hh ht hn hc hlen]
            exact h
          · rw [step_note_flush i l st ind txt t0 hh ht hn hc hlen]
            show pushTask st.sections t0 = []
            rw [h]
            rfl
        | none =>
          rw [step_note_nocur i l st ind txt hh ht hn hc]
          exact h
      | none =>
        by_cases hb : l.all isWsChar
        · rw [step_blank i l st hh ht hn hb]
          exact h
        · rw [step_other i l st hh ht hn hb]
          show pushOpt st.sections st.cur = []
          rw [h, pushOpt_nil]

theorem find_task_ok_mem {secs : List Section} {id : List Char} {t : Task}
    (h : find_task secs id = .ok t) : t ∈ allTasks secs := by
  unfold find_task at h
  split at h
  · cases h
  · rename_i t' hfil
    have ht' : t' ∈ (allTasks secs).filter (fun u => u.id == id) := by
      rw [hfil]
      exact List.mem_singleton.mpr rfl
    cases h
    exact List.mem_of_mem_filter ht'
  · cases h

theorem search_tasks_mem {secs : List Section} {q : List Char} {t : Task}
    (h : t ∈ search_tasks secs q) : t ∈ allTasks secs :=
  List.mem_of_mem_filter h

/-- C9: a task line in the scanned window that lies before the first
section header of the window is silently dropped: no task of any returned
Section carries its line number, so neither a successful id lookup nor a
search can ever return it. -/
theorem parse_log_window_preheader_dropped (content : List Char) (w i : Nat)
    (hi : i < (windowLines content w).length)
    (htask : (parse_task_line ((windowLines content w).getD i [])).isSome = true)
    (hpre : ∀ j, j ≤ i → is_section_header ((windowLines content w).getD j []) = none) :
    (∀ t ∈ allTasks (parse_log content w), t.line_number ≠ windowStart content w + i) ∧
    (∀ id t, find_task (parse_log content w) id = .ok t →
      t.line_number ≠ windowStart content w + i) ∧
    (∀ q t, t ∈ search_tasks (parse_log content w) q →
      t.line_number ≠ windowStart content w + i) := by
  have hgetD : ∀ j (hj : j < (windowLines content w).length),
      (windowLines content w).getD j [] = (windowLines content w)[j] := by
    intro j hj
    simp [List.getD_eq_getElem?_getD, List.getElem?_eq_getElem hj]
  have hmain : ∀ t ∈ allTasks (parse_log content w),
      t.line_number ≠ windowStart content w + i := by
    intro t ht
    set win := windowLines content w with hwin
    set start := windowStart content w with hstart
    obtain ⟨f, hf⟩ := Option.isSome_iff_exists.mp htask
    rw [hgetD i hi] at hf
    have hh : is_section_header win[i] = none := by
      rw [← hgetD i hi]
      exact hpre i le_rfl
    have htlen : (win.take i).length = i := by
      rw [List.length_take]
      omega
    have hs1 : (processLines start (win.take i) ⟨[], none, []⟩).sections = [] := by
      apply processLines_sections_nil
      · intro l hl
        obtain ⟨k, hk, hkl⟩ := List.mem_iff_getElem.mp hl
        have hk2 : k < i := by
          rw [htlen] at hk
          exact hk
        have hq : (win.take i)[k]? = win[k]? := List.getElem?_take_of_lt hk2
        rw [List.getElem?_eq_getElem hk,
          List.getElem?_eq_getElem (show k < win.length by omega)] at hq
        have hval : (win.take i)[k] = win[k] := Option.some.inj hq
        rw [hval] at hkl
        rw [← hkl, ← hgetD k (by omega)]
        exact hpre k (by omega)
      · rfl
    have hplog : parse_log content w =
        parseFrom (start + (win.take (i + 1)).length) (win.drop (i + 1))
          (processLines start (win.take (i + 1)) ⟨[], none, []⟩) := by
      have h0 : parse_log content w = parseFrom start win ⟨[], none, []⟩ :=
        parse_log_eq_parseFrom content w
      have h1 : parseFrom start win ⟨[], none, []⟩ =
          parseFrom start (win.take (i + 1) ++ win.drop (i + 1)) ⟨[], none, []⟩ := by
        rw [List.take_append_drop]
      rw [h0, h1, parseFrom_append]
    have hmid : processLines start (win.take (i + 1)) ⟨[], none, []⟩ =
        step (start + i) win[i] (processLines start (win.take i) ⟨[], none, []⟩) := by
      conv_lhs => rw [← List.take_concat_get win i hi]
      rw [List.concat_eq_append, processLines_append, htlen]
      rfl
    have hstep := step_task (start + i) win[i]
      (processLines start (win.take i) ⟨[], none, []⟩) f hh hf
    rw [hplog, hmid, hstep] at ht
    have hlen2 : (win.take (i + 1)).length = i + 1 := by
      rw [List.length_take]
      omega
    rw [hlen2] at ht
    exact parseFrom_drop_cur (win.drop (i + 1)) (start + (i + 1)) _ _
      (by show pushOpt (processLines start (win.take i) ⟨[], none, []⟩).sections _ = []
          rw [hs1]
          exact pushOpt_nil _)
      rfl (show start + i < start + (i + 1) by omega) t ht
  exact ⟨hmain, fun id t hfind => hmain t (find_task_ok_mem hfind),
    fun q t hsr => hmain t (search_tasks_mem hsr)⟩

/-- Witness for C9: with a four-line log and a window of three lines, the
task line `- [ ] ab-1 t` at absolute line 1 sits in the window before its
first header and no parsed task carries line number 1. -/
theorem parse_log_window_preheader_dropped_witness :
    (allTasks (parse_log "x\n- [ ] ab-1 t\n### d\n- [ ] cd-2 u\n".data 3)).filter
      (fun t => t.line_number ==
        windowStart "x\n- [ ] ab-1 t\n### d\n- [ ] cd-2 u\n".data 3 + 0) = [] := by
  rw [List.filter_eq_nil_iff]
  intro t ht hbeq
  exact (parse_log_window_preheader_dropped "x\n- [ ] ab-1 t\n### d\n- [ ] cd-2 u\n".data
    3 0 (by decide) (by decide)
    (fun j hj => by
      have h0 : j = 0 := Nat.le_zero.mp hj
      subst h0
      decide)).1 t ht (eq_of_beq hbeq)

/-! ## Counter-store lemmas -/

theorem lookupTag_setTag (st : StMap) (tag : List Char) (v : Nat) :
    lookupTag (setTag st tag v) tag = some v := by
  induction st with
  | nil => simp [setTag, lookupTag]
  | cons p rest ih =>
    obtain ⟨k, w⟩ := p
    by_cases hk : k = tag
    · simp [setTag, hk, lookupTag]
    · simp [setTag, hk, lookupTag, ih]

theorem next_id_of_lookup {st : StMap} {tag : List Char} {v : Nat}
    (h : lookupTag st tag = some v) :
    next_id st tag = ((v + 1) % 2 ^ 64, setTag st tag ((v + 1) % 2 ^ 64)) := by
  unfold next_id
  rw [h]

theorem one_mod_u64 : 1 % 2 ^ 64 = 1 := by decide

theorem allocs_of_lookup (n : Nat) : ∀ (st : StMap) (tag : List Char) (v : Nat),
    lookupTag st tag = some v → v + n < 2 ^ 64 →
    allocs st tag n = List.range' (v + 1) n := by
  induction n with
  | zero =>
    intro st tag v h hb
    rfl
  | succ m ih =>
    intro st tag v h hb
    have hm : (v + 1) % 2 ^ 64 = v + 1 := Nat.mod_eq_of_lt (by omega)
    simp only [allocs, next_id_of_lookup h, hm]
    rw [ih (setTag st tag (v + 1)) tag (v + 1) (lookupTag_setTag st tag (v + 1))
      (by omega)]
    rw [List.range'_succ]

/-- The values issued by `n` allocations from a stored counter `v`: the
`u64` increments `(v + 1 + k) % 2 ^ 64` in order. -/
theorem allocs_mod (n : Nat) : ∀ (st : StMap) (tag : List Char) (v : Nat),
    lookupTag st tag = some v →
    allocs st tag n = (List.range n).map (fun k => (v + 1 + k) % 2 ^ 64) := by
  induction n with
  | zero =>
    intro st tag v h
    rfl
  | succ m ih =>
    intro st tag v h
    simp only [allocs, next_id_of_lookup h]
    rw [ih (setTag st tag ((v + 1) % 2 ^ 64)) tag ((v + 1) % 2 ^ 64)
      (lookupTag_setTag st tag ((v + 1) % 2 ^ 64))]
    rw [List.range_succ_eq_map, List.map_cons, List.map_map]
    refine congrArg₂ _ (by simp) ?_
    refine List.map_congr_left (fun k hk => ?_)
    show ((v + 1) % 2 ^ 64 + 1 + k) % 2 ^ 64 = (v + 1 + (k + 1)) % 2 ^ 64
    rw [Nat.add_assoc ((v + 1) % 2 ^ 64) 1 k, Nat.mod_add_mod,
      show v + 1 + (1 + k) = v + 1 + (k + 1) from by omega]

/-- C4 (amended): while the counter stays below `2 ^ 64`, `next_id` on an
absent counter creates it at 0, increments and returns the new value, so
`n < 2 ^ 64` sequential allocations for one tag are exactly `1, 2, …, n`:
strictly increasing from 1, never repeating.  (The `u64` counter wraps at
`2 ^ 64`, after which numbers repeat.) -/
theorem next_id_fresh_allocations (st : StMap) (tag : List Char) (n : Nat)
    (h : lookupTag st tag = none) (hn : n < 2 ^ 64) :
    allocs st tag n = List.range' 1 n ∧ (allocs st tag n).Nodup ∧
      List.Chain' (· < ·) (allocs st tag n) := by
  have heq : allocs st tag n = List.range' 1 n := by
    cases n with
    | zero => rfl
    | succ m =>
      have hfirst : next_id st tag = (1, setTag st tag 1) := by
        unfold next_id
        rw [h, one_mod_u64]
      simp only [allocs, hfirst]
      rw [allocs_of_lookup m (setTag st tag 1) tag 1 (lookupTag_setTag st tag 1)
        (by omega)]
      rw [List.range'_succ]
  refine ⟨heq, ?_, ?_⟩
  · rw [heq]
    exact List.nodup_range' 1 n
  · rw [heq]
    exact (List.pairwise_lt_range' 1 n).chain'

/-- Counterexample to the original C4: after the full `u64` cycle the
counter wraps, so `2 ^ 64 + 1` fresh allocations re-issue the value 1 —
the sequence is not duplicate-free. -/
theorem next_id_fresh_allocations_cex :
    ¬ (allocs [] "foo".data (2 ^ 64 + 1)).Nodup := by
  intro hnd
  have hfirst : next_id [] "foo".data = (1, setTag [] "foo".data 1) := by
    unfold next_id
    rw [show lookupTag [] "foo".data = none from rfl, one_mod_u64]
  have hchar : allocs [] "foo".data (2 ^ 64 + 1) =
      1 :: (List.range (2 ^ 64)).map (fun k => (1 + 1 + k) % 2 ^ 64) := by
    show (next_id [] "foo".data).1 ::
        allocs (next_id [] "foo".data).2 "foo".data (2 ^ 64) = _
    rw [hfirst]
    rw [allocs_mod (2 ^ 64) (setTag [] "foo".data 1) "foo".data 1
      (lookupTag_setTag [] "foo".data 1)]
  rw [hchar, List.nodup_cons] at hnd
  refine hnd.1 (List.mem_map.mpr ⟨2 ^ 64 - 1, List.mem_range.mpr (by omega), ?_⟩)
  show (1 + 1 + (2 ^ 64 - 1)) % 2 ^ 64 = 1
  rw [show 1 + 1 + (2 ^ 64 - 1) = 2 ^ 64 + 1 from by omega, Nat.add_mod_left,
    one_mod_u64]

/-- Witness for C4: three fresh allocations yield exactly 1, 2, 3. -/
theorem next_id_fresh_allocations_witness :
    allocs [] "foo".data 3 = List.range' 1 3 :=
  (next_id_fresh_allocations [] "foo".data 3 rfl (by decide)).1

theorem lookupTag_sync_min (st : StMap) (tag : List Char) (m : Nat) :
    lookupTag (sync_min st tag m) tag =
      some (Nat.max ((lookupTag st tag).getD 0) m) := by
  unfold sync_min
  cases h : lookupTag st tag with
  | none =>
    rw [lookupTag_setTag]
    simp
  | some v =>
    by_cases hv : v < m
    · show lookupTag (if v < m then setTag st tag m else st) tag = some (Nat.max v m)
      rw [if_pos hv, lookupTag_setTag]
      simp [Nat.max_eq_right hv.le]
    · show lookupTag (if v < m then setTag st tag m else st) tag = some (Nat.max v m)
      rw [if_neg hv, h]
      simp [Nat.max_eq_left (Nat.le_of_not_lt hv)]

theorem next_id_after_sync (st : StMap) (tag : List Char) (m : Nat) :
    next_id (sync_min st tag m) tag =
      ((Nat.max ((lookupTag st tag).getD 0) m + 1) % 2 ^ 64,
        setTag (sync_min st tag m) tag
          ((Nat.max ((lookupTag st tag).getD 0) m + 1) % 2 ^ 64)) := by
  unfold next_id
  rw [lookupTag_sync_min]

/-- C1 (amended): a successful `add_task` first raises the counter to at
least the maximum number for the tag found in the scanned window (and never
below its stored value), then allocates the next number as a `u64`.  When
the reconciled counter `max(stored, window max)` is below `2 ^ 64 - 1`, the
returned id is `tag-(max(stored, window max) + 1)`, which exceeds both; at
`2 ^ 64 - 1` the increment wraps and the returned number is 0. -/
theorem add_task_reconciles (today : List Char) (w : Nat) (st : StMap)
    (content tag title id c2 : List Char) (st2 : StMap)
    (hval : Nat.max ((lookupTag st tag).getD 0)
        (maxTagNum (parse_log (ensure_today_section today content) w) tag) + 1 < 2 ^ 64)
    (hok : add_task today w st content tag title = .ok (id, c2, st2)) :
    id = tag ++ '-' :: natDigits
        (Nat.max ((lookupTag st tag).getD 0)
          (maxTagNum (parse_log (ensure_today_section today content) w) tag) + 1) ∧
    lookupTag st2 tag = some
        (Nat.max ((lookupTag st tag).getD 0)
          (maxTagNum (parse_log (ensure_today_section today content) w) tag) + 1) ∧
    maxTagNum (parse_log (ensure_today_section today content) w) tag <
      Nat.max ((lookupTag st tag).getD 0)
        (maxTagNum (parse_log (ensure_today_section today content) w) tag) + 1 ∧
    (lookupTag st tag).getD 0 <
      Nat.max ((lookupTag st tag).getD 0)
        (maxTagNum (parse_log (ensure_today_section today content) w) tag) + 1 := by
  by_cases hv : ¬ tag.all isTagCh ∨ tag = []
  · unfold add_task at hok
    rw [if_pos hv] at hok
    cases hok
  · unfold add_task at hok
    rw [if_neg hv] at hok
    cases hfls : find_last_section (ensure_today_section today content) with
    | none => simp [hfls] at hok
    | some pr =>
      obtain ⟨sl, d⟩ := pr
      simp only [hfls, Except.ok.injEq, Prod.mk.injEq] at hok
      obtain ⟨h1, h2, h3⟩ := hok
      rw [next_id_after_sync] at h1 h3
      rw [Nat.mod_eq_of_lt hval] at h1 h3
      refine ⟨h1.symm, ?_, ?_, ?_⟩
      · rw [← h3, lookupTag_setTag]
      · exact Nat.lt_succ_of_le (Nat.le_max_right _ _)
      · exact Nat.lt_succ_of_le (Nat.le_max_left _ _)

/-- Witness for C1: the log holds an untracked `foo-7` and the stored
counter is 3, so the returned id is `foo-8`. -/
theorem add_task_reconciles_witness :
    "foo-8".data = "foo".data ++ '-' :: natDigits
        (Nat.max ((lookupTag [("foo".data, 3)] "foo".data).getD 0)
          (maxTagNum (parse_log (ensure_today_section "05/10/2026".data
            "### 05/10/2026\n- [ ] foo-7 legacy\n".data) 5000) "foo".data) + 1) ∧
      lookupTag [("foo".data, 8)] "foo".data = some
        (Nat.max ((lookupTag [("foo".data, 3)] "foo".data).getD 0)
          (maxTagNum (parse_log (ensure_today_section "05/10/2026".data
            "### 05/10/2026\n- [ ] foo-7 legacy\n".data) 5000) "foo".data) + 1) := by
  have h := add_task_reconciles "05/10/2026".data 5000 [("foo".data, 3)]
    "### 05/10/2026\n- [ ] foo-7 legacy\n".data "foo".data "new".data
    "foo-8".data "### 05/10/2026\n- [ ] foo-7 legacy\n- [ ] foo-8 new\n".data
    [("foo".data, 8)] (by decide) (by decide)
  exact ⟨h.1, h.2.1⟩

/-- Counterexample to the original C1: a window containing the untracked
task `foo-18446744073709551615` (the largest parseable `u64` number) drives
the reconciled counter to `u64::MAX`, the increment wraps, and `add_task`
returns the id `foo-0` — not a number exceeding the window maximum. -/
theorem add_task_reconciles_cex :
    add_task "d".data 5000 []
        "### d\n- [ ] foo-18446744073709551615 t\n".data "foo".data "t2".data =
      .ok ("foo-0".data,
        "### d\n- [ ] foo-18446744073709551615 t\n- [ ] foo-0 t2\n".data,
        [("foo".data, 0)]) ∧
    maxTagNum (parse_log (ensure_today_section "d".data
        "### d\n- [ ] foo-18446744073709551615 t\n".data) 5000) "foo".data =
      2 ^ 64 - 1 := by
  decide

/-! ## complete_task -/

theorem parse_log_line_number_lt {content : List Char} {w : Nat} {t : Task}
    (h : t ∈ allTasks (parse_log content w)) :
    t.line_number < (rlines content).length := by
  rw [parse_log_eq_parseFrom] at h
  rcases parseFrom_line_numbers _ _ _ _ h with h1 | ⟨t0, hc, _⟩ | ⟨_, h2⟩
  · simp [allTasks] at h1
  · cases hc
  · have hsum : windowStart content w + (windowLines content w).length =
        (rlines content).length := by
      unfold windowStart windowLines
      rw [List.length_drop]
      unfold windowStart
      split <;> omega
    omega

/-- C2: completing a task that already parses as done fails with an error
and the written content is unchanged (no write happens on the error path). -/
theorem complete_task_already_done (stamp : List Char) (w : Nat) (content id : List Char)
    (t : Task) (hfind : find_task (parse_log content w) id = .ok t)
    (hdone : t.done = true) :
    (∃ e, complete_task stamp w content id = .error e) ∧
      runComplete stamp w content id = content := by
  have herr : complete_task stamp w content id =
      .error (.Other ("task ".data ++ id ++ " is already done".data)) := by
    unfold complete_task
    simp only [hfind]
    rw [if_pos hdone]
  refine ⟨⟨_, herr⟩, ?_⟩
  unfold runComplete
  rw [herr]

/-- Witness for C2: completing the already-checked `ab-1` fails and leaves
the content intact. -/
theorem complete_task_already_done_witness :
    find_task (parse_log "### d\n- [x] ab-1 t (e)\n".data 5000) "ab-1".data =
        .ok ⟨1, [], true, "ab".data, 1, "t (e)".data, [], ['d']⟩ ∧
      runComplete "s".data 5000 "### d\n- [x] ab-1 t (e)\n".data "ab-1".data =
        "### d\n- [x] ab-1 t (e)\n".data := by
  refine ⟨by decide, ?_⟩
  exact (complete_task_already_done "s".data 5000 "### d\n- [x] ab-1 t (e)\n".data
    "ab-1".data ⟨1, [], true, "ab".data, 1, "t (e)".data, [], ['d']⟩
    (by decide) (by decide)).2

theorem mem_replaceFirst {pat rep s : List Char} {c : Char}
    (h : c ∈ replaceFirst pat rep s) : c ∈ rep ∨ c ∈ s := by
  induction s with
  | nil =>
    unfold replaceFirst at h
    split at h
    · exact .inl h
    · simp at h
  | cons x t ih =>
    unfold replaceFirst at h
    split at h
    · rcases List.mem_append.mp h with h | h
      · exact .inl h
      · exact .inr (List.drop_subset _ _ h)
    · rcases List.mem_cons.mp h with h | h
      · exact .inr (by rw [h]; exact List.mem_cons_self x t)
      · rcases ih h with h2 | h2
        · exact .inl h2
        · exact .inr (List.mem_cons_of_mem x h2)

theorem getD_dropLast {ls : List (List Char)} {j : Nat} (h : j + 1 < ls.length) :
    ls.dropLast.getD j [] = ls.getD j [] := by
  rw [List.dropLast_eq_take]
  simp only [List.getD_eq_getElem?_getD]
  rw [List.getElem?_take_of_lt (by omega)]

theorem getD_normTrail {ls : List (List Char)} {j : Nat} (h : j + 1 < ls.length) :
    (normTrail ls).getD j [] = ls.getD j [] := by
  unfold normTrail
  split
  · exact getD_dropLast h
  · rfl

theorem normTrail_of_getLast_ne {ls : List (List Char)} {x : List Char}
    (hx : ls.getLast? = some x) (hne : x ≠ []) : normTrail ls = ls := by
  unfold normTrail
  rw [if_neg]
  rintro ⟨h1, -⟩
  rw [hx] at h1
  exact hne (Option.some.inj h1)

/-- C3 (amended): completing a not-yet-done task rewrites exactly the
task's line — first `[ ]` replaced by `[x]`, then ` (<stamp>)` appended —
and every other line is unchanged, except that a trailing blank last line
of the document is dropped by the rejoin step. -/
theorem complete_task_not_done (stamp : List Char) (w : Nat) (content id : List Char)
    (t : Task) (hfind : find_task (parse_log content w) id = .ok t)
    (hnd : t.done = false) (hstamp : '\n' ∉ stamp) :
    complete_task stamp w content id = .ok (unlines ((rlines content).set t.line_number
        (replaceFirst ['[', ' ', ']'] ['[', 'x', ']']
          ((rlines content).getD t.line_number []) ++ ' ' :: '(' :: (stamp ++ [')'])))) ∧
    rlines (runComplete stamp w content id) =
      normTrail ((rlines content).set t.line_number
        (replaceFirst ['[', ' ', ']'] ['[', 'x', ']']
          ((rlines content).getD t.line_number []) ++ ' ' :: '(' :: (stamp ++ [')']))) ∧
    (rlines (runComplete stamp w content id)).getD t.line_number [] =
      replaceFirst ['[', ' ', ']'] ['[', 'x', ']']
        ((rlines content).getD t.line_number []) ++ ' ' :: '(' :: (stamp ++ [')']) ∧
    (∀ j, j ≠ t.line_number → j + 1 < (rlines content).length →
      (rlines (runComplete stamp w content id)).getD j [] =
        (rlines content).getD j []) := by
  have hlt : t.line_number < (rlines content).length :=
    parse_log_line_number_lt (find_task_ok_mem hfind)
  set L := rlines content with hL
  set nl := replaceFirst ['[', ' ', ']'] ['[', 'x', ']'] (L.getD t.line_number []) ++
    ' ' :: '(' :: (stamp ++ [')']) with hnldef
  have hok : complete_task stamp w content id = .ok (unlines (L.set t.line_number nl)) := by
    unfold complete_task
    simp only [hfind]
    rw [if_neg (by rw [hnd]; exact Bool.false_ne_true)]
  have hrun : runComplete stamp w content id = unlines (L.set t.line_number nl) := by
    unfold runComplete
    rw [hok]
  have hLne : L.set t.line_number nl ≠ [] := by
    intro hc
    have hlen := congrArg List.length hc
    simp only [List.length_set, List.length_nil] at hlen
    omega
  have hnlne : nl ≠ [] := by
    rw [hnldef]
    simp
  have hline_mem : L.getD t.line_number [] ∈ L := by
    have hq : L[t.line_number]? = some L[t.line_number] := List.getElem?_eq_getElem hlt
    rw [List.getD_eq_getElem?_getD, hq]
    exact List.getElem_mem hlt
  have hnlnoNl : '\n' ∉ nl := by
    rw [hnldef]
    intro hc
    rcases List.mem_append.mp hc with hc | hc
    · rcases mem_replaceFirst hc with hc | hc
      · simp at hc
      · exact rlines_no_nl content _ hline_mem hc
    · simp at hc
      exact hstamp hc
  have hchunks : ∀ x ∈ L.set t.line_number nl, '\n' ∉ x := by
    intro x hx
    rcases List.mem_or_eq_of_mem_set hx with hx | hx
    · exact rlines_no_nl content x hx
    · rw [hx]
      exact hnlnoNl
  have hrt : rlines (unlines (L.set t.line_number nl)) = normTrail (L.set t.line_number nl) :=
    rlines_unlines _ hLne hchunks
  refine ⟨hok, ?_, ?_, ?_⟩
  · rw [hrun, hrt]
  · rw [hrun, hrt]
    by_cases hend : t.line_number + 1 < L.length
    · rw [getD_normTrail (by rw [List.length_set]; omega)]
      simp [List.getD_eq_getElem?_getD, List.getElem?_set_self hlt]
    · have hidx : L.length - 1 = t.line_number := by omega
      have hlast : (L.set t.line_number nl).getLast? = some nl := by
        rw [List.getLast?_eq_getElem?]
        rw [List.length_set, hidx]
        exact List.getElem?_set_self hlt
      rw [normTrail_of_getLast_ne hlast hnlne]
      simp [List.getD_eq_getElem?_getD, List.getElem?_set_self hlt]
  · intro j hj hjlt
    rw [hrun, hrt, getD_normTrail (by rw [List.length_set]; omega)]
    simp only [List.getD_eq_getElem?_getD]
    rw [List.getElem?_set_ne (Ne.symm hj)]

/-- Counterexample to C3 as stated: on a log whose content ends in a blank
line, completing the task also deletes that trailing blank line, so a line
other than the task's is changed (the line count drops from 3 to 2). -/
theorem complete_task_not_done_cex :
    complete_task "s".data 5000 "### d\n- [ ] ab-1 t\n\n".data "ab-1".data =
      .ok "### d\n- [x] ab-1 t (s)\n".data ∧
    (rlines "### d\n- [ ] ab-1 t\n\n".data).length = 3 ∧
    (rlines (runComplete "s".data 5000 "### d\n- [ ] ab-1 t\n\n".data "ab-1".data)).length
      = 2 ∧
    rlines (runComplete "s".data 5000 "### d\n- [ ] ab-1 t\n\n".data "ab-1".data) ≠
      (rlines "### d\n- [ ] ab-1 t\n\n".data).set 1
        (replaceFirst ['[', ' ', ']'] ['[', 'x', ']']
          ((rlines "### d\n- [ ] ab-1 t\n\n".data).getD 1 []) ++
            ' ' :: '(' :: ("s".data ++ [')'])) := by
  decide

/-- Witness for the amended C3 on a well-formed log: the task line is
rewritten in place and the header line is untouched. -/
theorem complete_task_not_done_witness :
    complete_task "s".data 5000 "### d\n- [ ] ab-1 t\n".data "ab-1".data =
      .ok (unlines ((rlines "### d\n- [ ] ab-1 t\n".data).set 1
        (replaceFirst ['[', ' ', ']'] ['[', 'x', ']']
          ((rlines "### d\n- [ ] ab-1 t\n".data).getD 1 []) ++
            ' ' :: '(' :: ("s".data ++ [')'])))) ∧
      (rlines (runComplete "s".data 5000 "### d\n- [ ] ab-1 t\n".data "ab-1".data)).getD 0 []
        = "### d".data := by
  have h := complete_task_not_done "s".data 5000 "### d\n- [ ] ab-1 t\n".data "ab-1".data
    ⟨1, [], false, "ab".data, 1, ['t'], [], ['d']⟩ (by decide) (by decide) (by decide)
  refine ⟨h.1, ?_⟩
  rw [h.2.2.2 0 (by decide) (by decide)]
  decide

/-! ## ensure_today_section -/

theorem splitNl_append (a b : List Char) :
    splitNl (a ++ '\n' :: b) = splitNl a ++ splitNl b := by
  induction a with
  | nil => simp [splitNl]
  | cons x t ih =>
    simp only [List.cons_append, splitNl, List.append_eq]
    by_cases hx : x = '\n'
    · rw [if_pos hx, if_pos hx, ih]
      simp
    · rw [if_neg hx, if_neg hx, ih]
      cases hs : splitNl t with
      | nil => exact absurd hs (splitNl_ne_nil t)
      | cons l0 ls0 => simp

theorem splitNl_getLast_ne (c : List Char) : c ≠ [] → c.getLast? ≠ some '\n' →
    (splitNl c).getLast? ≠ some [] := by
  induction c with
  | nil =>
    intro h
    exact absurd rfl h
  | cons x t ih =>
    intro _ hlast
    cases t with
    | nil =>
      by_cases hx : x = '\n'
      · exact absurd (by rw [hx]; rfl) hlast
      · simp [splitNl, hx]
    | cons y t2 =>
      have hlast2 : (y :: t2).getLast? ≠ some '\n' := by
        rw [← List.getLast?_cons_cons (a := x)]
        exact hlast
      by_cases hx : x = '\n'
      · have hstep : splitNl (x :: y :: t2) = [] :: splitNl (y :: t2) := by
          rw [splitNl, if_pos hx]
        rw [hstep, getLast?_cons_eq, if_neg (splitNl_ne_nil (y :: t2))]
        exact ih (by simp) hlast2
      · cases hs : splitNl (y :: t2) with
        | nil => exact absurd hs (splitNl_ne_nil _)
        | cons l0 ls0 =>
          have hstep : splitNl (x :: y :: t2) = (x :: l0) :: ls0 := by
            rw [splitNl, if_neg hx, hs]
          rw [hstep]
          cases ls0 with
          | nil => simp
          | cons l1 ls1 =>
            rw [List.getLast?_cons_cons]
            have hres := ih (by simp) hlast2
            rw [hs, List.getLast?_cons_cons] at hres
            exact hres

theorem hdrLine_no_nl (today : List Char) (hnl : '\n' ∉ today) :
    '\n' ∉ hdrLine today := by
  intro hc
  simp only [hdrLine, List.mem_cons] at hc
  rcases hc with h | h | h | h | h
  · exact absurd h (by decide)
  · exact absurd h (by decide)
  · exact absurd h (by decide)
  · exact absurd h (by decide)
  · exact hnl h

theorem rlines_appendTodayHeader (today content : List Char) (hnl : '\n' ∉ today) :
    rlines (appendTodayHeader today content) = rlines content ++ [[], hdrLine today] := by
  have hbase : splitNl (if content ≠ [] ∧ content.getLast? ≠ some '\n'
      then content ++ ['\n'] else content) = rlines content ++ [[]] := by
    split
    · rename_i hcond
      rw [splitNl_concat_nl]
      unfold rlines
      rw [if_neg (splitNl_getLast_ne content hcond.1 hcond.2)]
    · rename_i hcond
      by_cases hce : content = []
      · subst hce
        rfl
      · have hend : content.getLast? = some '\n' := by
          by_cases h2 : content.getLast? = some '\n'
          · exact h2
          · exact absurd ⟨hce, h2⟩ hcond
        obtain ⟨ys, hys⟩ := List.getLast?_eq_some_iff.mp hend
        rw [hys, splitNl_concat_nl]
        congr 1
        unfold rlines
        rw [splitNl_concat_nl, if_pos (by rw [List.getLast?_concat]), List.dropLast_concat]
  have hhdr : splitNl (hdrLine today ++ ['\n']) = [hdrLine today, []] := by
    rw [splitNl_concat_nl, splitNl_of_no_nl _ (hdrLine_no_nl today hnl)]
    rfl
  unfold appendTodayHeader rlines
  rw [splitNl_append, hbase, hhdr]
  rw [if_pos (by rw [List.getLast?_append]; rfl)]
  have hshape : (rlines content ++ [[]]) ++ [hdrLine today, []] =
      ((rlines content ++ [[], hdrLine today]) ++ [[]]) := by
    simp
  rw [hshape, List.dropLast_concat]
  rfl

/-- The date of the last section header of the content, if any. -/
def lastHeaderDate (content : List Char) : Option (List Char) :=
  (find_last_section content).map (fun p => p.2)

/-- C5 (amended): when the last header is already dated today the content
is returned unchanged; otherwise a today header is appended after
normalizing the trailing newline, and exactly one blank line is inserted
before the new header — unconditionally, also when the log is empty. -/
theorem ensure_today_section_spec (today content : List Char) (hnl : '\n' ∉ today) :
    (lastHeaderDate content = some today → ensure_today_section today content = content) ∧
    (lastHeaderDate content ≠ some today →
      rlines (ensure_today_section today content) =
        rlines content ++ [[], hdrLine today]) := by
  constructor
  · intro h
    cases hf : find_last_section content with
    | none =>
      unfold lastHeaderDate at h
      rw [hf] at h
      cases h
    | some pr =>
      obtain ⟨i, d⟩ := pr
      unfold lastHeaderDate at h
      rw [hf] at h
      simp at h
      unfold ensure_today_section
      rw [hf]
      simp [h]
  · intro h
    cases hf : find_last_section content with
    | none =>
      unfold ensure_today_section
      rw [hf]
      exact rlines_appendTodayHeader today content hnl
    | some pr =>
      obtain ⟨i, d⟩ := pr
      have hd : d ≠ today := by
        intro hc
        apply h
        unfold lastHeaderDate
        rw [hf, hc]
        rfl
      unfold ensure_today_section
      rw [hf]
      show rlines (if d = today then content else appendTodayHeader today content) = _
      rw [if_neg hd]
      exact rlines_appendTodayHeader today content hnl

/-- Counterexample to C5 as stated: on the empty log the appended header is
still preceded by one blank line, although the claim asserts a blank line
is inserted if and only if the log is non-empty. -/
theorem ensure_today_section_cex :
    rlines (ensure_today_section "05/10/2026".data []) =
      [[], hdrLine "05/10/2026".data] ∧
    rlines (ensure_today_section "05/10/2026".data []) ≠
      [hdrLine "05/10/2026".data] := by
  decide

/-- Witness for the amended C5: appending a header to a log dated
differently inserts one blank line and the header. -/
theorem ensure_today_section_spec_witness :
    lastHeaderDate "### 01/01/2024\n- [ ] ab-1 t\n".data ≠ some "05/10/2026".data ∧
    rlines (ensure_today_section "05/10/2026".data "### 01/01/2024\n- [ ] ab-1 t\n".data)
      = rlines "### 01/01/2024\n- [ ] ab-1 t\n".data ++ [[], hdrLine "05/10/2026".data] := by
  refine ⟨by decide, ?_⟩
  exact (ensure_today_section_spec "05/10/2026".data
    "### 01/01/2024\n- [ ] ab-1 t\n".data (by decide)).2 (by decide)

/-! ## Today-section extraction -/

theorem lastTodayAux_none (today : List Char) (ls : List (List Char)) :
    lastTodayAux today ls = none ↔
      ∀ j, j < ls.length → is_section_header (ls.getD j []) ≠ some today := by
  induction ls with
  | nil => simp [lastTodayAux]
  | cons l t ih =>
    constructor
    · intro h j hj
      unfold lastTodayAux at h
      cases hrec : lastTodayAux today t with
      | some i =>
        rw [hrec] at h
        cases h
      | none =>
        rw [hrec] at h
        have h2 : (if is_section_header l = some today then some 0
            else (none : Option Nat)) = none := h
        cases j with
        | zero =>
          intro hc
          rw [if_pos (by simpa using hc)] at h2
          cases h2
        | succ k =>
          exact (ih.mp hrec) k (by simp at hj; omega)
    · intro h
      have hrec : lastTodayAux today t = none :=
        ih.mpr (fun k hk => h (k + 1) (by simp only [List.length_cons]; omega))
      unfold lastTodayAux
      rw [hrec]
      exact if_neg (h 0 (by simp))

theorem lastTodayAux_last (today : List Char) (ls : List (List Char)) :
    ∀ s, s < ls.length → is_section_header (ls.getD s []) = some today →
      (∀ j, s < j → j < ls.length → is_section_header (ls.getD j []) ≠ some today) →
      lastTodayAux today ls = some s := by
  induction ls with
  | nil =>
    intro s hs
    simp at hs
  | cons l t ih =>
    intro s hs hhdr hlater
    cases s with
    | zero =>
      have hrec : lastTodayAux today t = none := by
        rw [lastTodayAux_none]
        intro k hk
        exact hlater (k + 1) (by omega) (by simp only [List.length_cons]; omega)
      unfold lastTodayAux
      rw [hrec]
      exact if_pos hhdr
    | succ k =>
      have hrec : lastTodayAux today t = some k := by
        apply ih k (by simp only [List.length_cons] at hs; omega) hhdr
        intro j hj hjlt
        exact hlater (j + 1) (by omega) (by simp only [List.length_cons]; omega)
      unfold lastTodayAux
      rw [hrec]

theorem firstHeaderIdx_none (ls : List (List Char)) :
    firstHeaderIdx ls = none ↔
      ∀ k, k < ls.length → (is_section_header (ls.getD k [])).isSome = false := by
  induction ls with
  | nil => simp [firstHeaderIdx]
  | cons l t ih =>
    constructor
    · intro h k hk
      unfold firstHeaderIdx at h
      split at h
      · cases h
      · rename_i hl
        cases k with
        | zero => simpa using hl
        | succ m =>
          have hrec : firstHeaderIdx t = none := by
            cases hr : firstHeaderIdx t with
            | none => rfl
            | some j => rw [hr] at h; cases h
          exact (ih.mp hrec) m (by simp only [List.length_cons] at hk; omega)
    · intro h
      unfold firstHeaderIdx
      rw [if_neg (by have := h 0 (by simp); simpa using this)]
      rw [ih.mpr (fun k hk => h (k + 1) (by simp only [List.length_cons]; omega))]
      rfl

theorem firstHeaderIdx_some (ls : List (List Char)) :
    ∀ j, firstHeaderIdx ls = some j →
      j < ls.length ∧ (is_section_header (ls.getD j [])).isSome = true ∧
        ∀ k, k < j → (is_section_header (ls.getD k [])).isSome = false := by
  induction ls with
  | nil =>
    intro j h
    cases h
  | cons l t ih =>
    intro j h
    unfold firstHeaderIdx at h
    split at h
    · rename_i hl
      cases h
      refine ⟨by simp, by simpa using hl, ?_⟩
      intro k hk
      omega
    · rename_i hl
      cases hr : firstHeaderIdx t with
      | none => rw [hr] at h; cases h
      | some m =>
        rw [hr] at h
        simp at h
        obtain ⟨hm1, hm2, hm3⟩ := ih m hr
        subst h
        refine ⟨by simp only [List.length_cons]; omega, hm2, ?_⟩
        intro k hk
        cases k with
        | zero => simpa using hl
        | succ k2 => exact hm3 k2 (by omega)

theorem getD_drop (ls : List (List Char)) (n k : Nat) :
    (ls.drop n).getD k [] = ls.getD (n + k) [] := by
  simp [List.getD_eq_getElem?_getD, List.getElem?_drop]

/-- C8: today-section extraction scans the whole document: if no header of
the document is dated today, `get_today` fails; if `s` is the last line
whose header date is today, `get_today` returns the verbatim text from
line `s` up to (excluding) the next header after `s` or the end of file,
`find_section_end` being exactly that boundary. -/
theorem get_today_whole_document (today content : List Char) :
    ((∀ j, j < (rlines content).length →
        is_section_header ((rlines content).getD j []) ≠ some today) →
      get_today today content = .error (.Other "no section for today found".data)) ∧
    (∀ s, s < (rlines content).length →
      is_section_header ((rlines content).getD s []) = some today →
      (∀ j, s < j → j < (rlines content).length →
        is_section_header ((rlines content).getD j []) ≠ some today) →
      get_today today content = .ok (joinNl (((rlines content).drop s).take
        (find_section_end content s - s))) ∧
      (∀ j, s < j → j < find_section_end content s →
        (is_section_header ((rlines content).getD j [])).isSome = false) ∧
      (find_section_end content s = (rlines content).length ∨
        (find_section_end content s < (rlines content).length ∧
          (is_section_header ((rlines content).getD
            (find_section_end content s) [])).isSome = true)) ∧
      s < find_section_end content s) := by
  constructor
  · intro h
    have hnone : lastTodayAux today (rlines content) = none := (lastTodayAux_none _ _).mpr h
    unfold get_today get_today_section_text
    rw [hnone]
  · intro s hs hhdr hlater
    have hsome : lastTodayAux today (rlines content) = some s :=
      lastTodayAux_last today (rlines content) s hs hhdr hlater
    have hok : get_today today content = .ok (joinNl (((rlines content).drop s).take
        (find_section_end content s - s))) := by
      unfold get_today get_today_section_text
      rw [hsome]
    refine ⟨hok, ?_, ?_, ?_⟩
    · intro j hj hjlt
      cases hf : firstHeaderIdx ((rlines content).drop (s + 1)) with
      | none =>
        simp only [find_section_end, hf] at hjlt
        have hall := (firstHeaderIdx_none _).mp hf
        have hres := hall (j - s - 1) (by rw [List.length_drop]; omega)
        rw [getD_drop] at hres
        have hje : s + 1 + (j - s - 1) = j := by omega
        rw [hje] at hres
        exact hres
      | some m =>
        simp only [find_section_end, hf] at hjlt
        obtain ⟨hm1, hm2, hm3⟩ := firstHeaderIdx_some _ m hf
        have hres := hm3 (j - s - 1) (by omega)
        rw [getD_drop] at hres
        have hje : s + 1 + (j - s - 1) = j := by omega
        rw [hje] at hres
        exact hres
    · cases hf : firstHeaderIdx ((rlines content).drop (s + 1)) with
      | none =>
        simp only [find_section_end, hf]
        exact .inl trivial
      | some m =>
        simp only [find_section_end, hf]
        obtain ⟨hm1, hm2, hm3⟩ := firstHeaderIdx_some _ m hf
        rw [List.length_drop] at hm1
        refine .inr ⟨by omega, ?_⟩
        rw [getD_drop] at hm2
        exact hm2
    · cases hf : firstHeaderIdx ((rlines content).drop (s + 1)) with
      | none =>
        simp only [find_section_end, hf]
        omega
      | some m =>
        simp only [find_section_end, hf]
        omega

/-- Witness for C8: in a log with three headers the section of the one
dated today is returned verbatim, up to the next header. -/
theorem get_today_whole_document_witness :
    get_today ['d'] "### e\n### d\nline\n### f\n".data =
      .ok (joinNl (((rlines "### e\n### d\nline\n### f\n".data).drop 1).take
        (find_section_end "### e\n### d\nline\n### f\n".data 1 - 1))) ∧
    joinNl (((rlines "### e\n### d\nline\n### f\n".data).drop 1).take
        (find_section_end "### e\n### d\nline\n### f\n".data 1 - 1)) =
      "### d\nline".data := by
  refine ⟨?_, by decide⟩
  refine ((get_today_whole_document ['d'] "### e\n### d\nline\n### f\n".data).2 1
    (by decide) (by decide) ?_).1
  intro j hj1 hj2
  have hj4 : j < 4 := by simpa using hj2
  interval_cases j
  · decide
  · decide

/-- C10: the tag `1a` (digit-leading) passes `add_task`'s validation and a
task is written, but the written line does not match the parser's task
pattern (tag must start with a letter), so the log parses to no task at
all and looking up the returned id fails with not-found. -/
theorem add_task_digit_tag_unfindable :
    add_task "01/01/2024".data 5000 [] "### 01/01/2024\n".data "1a".data "title".data =
      .ok ("1a-1".data, "### 01/01/2024\n- [ ] 1a-1 title\n".data, [("1a".data, 1)]) ∧
    parse_task_line "- [ ] 1a-1 title".data = none ∧
    find_task (parse_log "### 01/01/2024\n- [ ] 1a-1 title\n".data 5000) "1a-1".data =
      .error (.TaskNotFound "1a-1".data) ∧
    allTasks (parse_log "### 01/01/2024\n- [ ] 1a-1 title\n".data 5000) = [] := by
  decide

/-! ## Note attachment (the run of a task's notes) -/

/-- A line that terminates note collection for an open task of indent
width `tInd`: a header, a task line, a note-shaped line of indent not
deeper than the task's, or any other non-blank line.  Blank lines and
deeper note lines do not stop the run. -/
def noteStop (tInd : Nat) (l : List Char) : Bool :=
  (is_section_header l).isSome || (parse_task_line l).isSome ||
    (match is_note_line l with
     | some (ind, _) => decide (ind.length ≤ tInd)
     | none => !(l.all isWsChar))

/-- The notes collected from a run of non-stopping lines beginning at
absolute line index `i`: the deeper note-shaped lines, in order. -/
def runNotes (tInd : Nat) (i : Nat) : List (List Char) → List Note
  | [] => []
  | l :: rest =>
    match is_note_line l with
    | some (ind, txt) =>
      if tInd < ind.length then ⟨i, txt⟩ :: runNotes tInd (i + 1) rest
      else runNotes tInd (i + 1) rest
    | none => runNotes tInd (i + 1) rest

theorem noteStop_false_header {tInd : Nat} {l : List Char}
    (h : noteStop tInd l = false) : is_section_header l = none := by
  cases hx : is_section_header l with
  | none => rfl
  | some d =>
    rw [noteStop, hx] at h
    simp at h

theorem noteStop_false_task {tInd : Nat} {l : List Char}
    (h : noteStop tInd l = false) : parse_task_line l = none := by
  cases hx : parse_task_line l with
  | none => rfl
  | some f =>
    rw [noteStop, hx] at h
    simp at h

theorem processLines_run (run : List (List Char)) :
    ∀ (i : Nat) (rest : List (List Char)) (secs : List Section) (d : List Char) (t : Task),
      (∀ l ∈ run, noteStop t.indent.length l = false) →
      processLines i (run ++ rest) ⟨secs, some t, d⟩ =
        processLines (i + run.length) rest
          ⟨secs, some { t with notes := t.notes ++ runNotes t.indent.length i run }, d⟩ := by
  induction run with
  | nil =>
    intro i rest secs d t h
    simp [runNotes]
  | cons l run2 ih =>
    intro i rest secs d t h
    obtain ⟨ln, ind0, dn, tg, num, ttl, nts, dt⟩ := t
    have hl := h l (List.mem_cons_self l run2)
    have hh := noteStop_false_header hl
    have ht := noteStop_false_task hl
    rw [List.cons_append, processLines]
    cases hn : is_note_line l with
    | some p =>
      obtain ⟨ind, txt⟩ := p
      have hdeep : ind0.length < ind.length := by
        rw [noteStop, hh, ht, hn] at hl
        simp at hl
        omega
      rw [step_note_attach i l _ ind txt ⟨ln, ind0, dn, tg, num, ttl, nts, dt⟩
        hh ht hn rfl (by simp only []; omega)]
      dsimp only
      rw [ih (i + 1) rest secs d
        ⟨ln, ind0, dn, tg, num, ttl, nts ++ [(⟨i, txt⟩ : Note)], dt⟩
        (fun l2 hl2 => h l2 (List.mem_cons_of_mem l hl2))]
      dsimp only
      have hrn : runNotes ind0.length i (l :: run2) =
          ⟨i, txt⟩ :: runNotes ind0.length (i + 1) run2 := by
        simp only [runNotes, hn]
        rw [if_pos hdeep]
      rw [List.length_cons,
        show i + 1 + run2.length = i + (run2.length + 1) from by omega, hrn]
      simp [List.append_assoc]
    | none =>
      have hblank : l.all isWsChar = true := by
        rw [noteStop, hh, ht, hn] at hl
        simpa using hl
      rw [step_blank i l _ hh ht hn hblank]
      rw [ih (i + 1) rest secs d ⟨ln, ind0, dn, tg, num, ttl, nts, dt⟩
        (fun l2 hl2 => h l2 (List.mem_cons_of_mem l hl2))]
      dsimp only
      have hrn : runNotes ind0.length i (l :: run2) =
          runNotes ind0.length (i + 1) run2 := by
        simp only [runNotes, hn]
      rw [List.length_cons,
        show i + 1 + run2.length = i + (run2.length + 1) from by omega, hrn]

theorem mem_pushTask_self {secs : List Section} (t : Task) (h : secs ≠ []) :
    t ∈ allTasks (pushTask secs t) := by
  rw [allTasks_pushTask secs t h]
  exact List.mem_append.mpr (.inr (List.mem_singleton.mpr rfl))

theorem step_preserves_mem {st : PState} {u : Task} (i : Nat) (l : List Char)
    (h : u ∈ allTasks st.sections) : u ∈ allTasks (step i l st).sections := by
  cases hh : is_section_header l with
  | some d =>
    rw [step_header i l st d hh]
    show u ∈ allTasks (pushOpt st.sections st.cur ++ [⟨[]⟩])
    rw [allTasks_append]
    exact List.mem_append.mpr (.inl (mem_allTasks_pushOpt_left h))
  | none =>
    cases ht : parse_task_line l with
    | some f =>
      rw [step_task i l st f hh ht]
      exact mem_allTasks_pushOpt_left h
    | none =>
      cases hn : is_note_line l with
      | some p =>
        obtain ⟨ind, txt⟩ := p
        cases hc : st.cur with
        | some t0 =>
          by_cases hlen : ind.length > t0.indent.length
          · rw [step_note_attach i l st ind txt t0 hh ht hn hc hlen]
            exact h
          · rw [step_note_flush i l st ind txt t0 hh ht hn hc hlen]
            exact mem_allTasks_pushTask_left h
        | none =>
          rw [step_note_nocur i l st ind txt hh ht hn hc]
          exact h
      | none =>
        by_cases hb : l.all isWsChar
        · rw [step_blank i l st hh ht hn hb]
          exact h
        · rw [step_other i l st hh ht hn hb]
          exact mem_allTasks_pushOpt_left h

theorem processLines_preserves_mem (ls : List (List Char)) :
    ∀ (i : Nat) (st : PState) (u : Task), u ∈ allTasks st.sections →
      u ∈ allTasks (processLines i ls st).sections := by
  induction ls with
  | nil =>
    intro i st u h
    exact h
  | cons l rest ih =>
    intro i st u h
    rw [processLines]
    exact ih (i + 1) (step i l st) u (step_preserves_mem i l h)

/-- The open task is flushed with its current notes when the next line is
a stopper (or the window ends), and survives to the final output. -/
theorem parseFrom_cur_flushed (ls : List (List Char)) (i : Nat) (secs : List Section)
    (d : List Char) (t : Task) (hsec : secs ≠ [])
    (hstop : ls = [] ∨ ∃ x xs, ls = x :: xs ∧ noteStop t.indent.length x = true) :
    t ∈ allTasks (parseFrom i ls ⟨secs, some t, d⟩) := by
  rcases hstop with hnil | ⟨x, xs, hcons, hx⟩
  · subst hnil
    show t ∈ allTasks (pushOpt secs (some t))
    exact mem_pushTask_self t hsec
  · subst hcons
    rw [parseFrom_cons]
    have hmem : t ∈ allTasks (step i x ⟨secs, some t, d⟩).sections := by
      cases hh : is_section_header x with
      | some dd =>
        rw [step_header i x _ dd hh]
        show t ∈ allTasks (pushOpt secs (some t) ++ [⟨[]⟩])
        rw [allTasks_append]
        exact List.mem_append.mpr (.inl (mem_pushTask_self t hsec))
      | none =>
        cases ht : parse_task_line x with
        | some f =>
          rw [step_task i x _ f hh ht]
          exact mem_pushTask_self t hsec
        | none =>
          cases hn : is_note_line x with
          | some p =>
            obtain ⟨ind, txt⟩ := p
            have hshallow : ¬ ind.length > t.indent.length := by
              rw [noteStop, hh, ht, hn] at hx
              simp at hx
              omega
            rw [step_note_flush i x _ ind txt t hh ht hn rfl hshallow]
            exact mem_pushTask_self t hsec
          | none =>
            have hnb : ¬ x.all isWsChar = true := by
              rw [noteStop, hh, ht, hn] at hx
              simpa using hx
            rw [step_other i x _ hh ht hn hnb]
            exact mem_pushTask_self t hsec
    unfold parseFrom finalize
    exact mem_allTasks_pushOpt_left
      (processLines_preserves_mem xs (i + 1) (step i x ⟨secs, some t, d⟩) t hmem)

theorem dropWhile_head {p : α → Bool} :
    ∀ (ls : List α) (x : α) (rest : List α), ls.dropWhile p = x :: rest → p x = false := by
  intro ls
  induction ls with
  | nil =>
    intro x rest h
    cases h
  | cons c t ih =>
    intro x rest h
    rw [List.dropWhile_cons] at h
    split at h
    · exact ih x rest h
    · rename_i hc
      cases h
      simpa using hc

theorem header_none_of_task {l : List Char} {f : TaskLine}
    (hf : parse_task_line l = some f) : is_section_header l = none := by
  cases hl : is_section_header l with
  | none => rfl
  | some d =>
    exfalso
    unfold is_section_header at hl
    split at hl
    · rename_i rest
      unfold parse_task_line at hf
      rw [show ('#' :: '#' :: '#' :: ' ' :: rest).dropWhile isWsChar =
          '#' :: '#' :: '#' :: ' ' :: rest from
        List.dropWhile_cons_of_neg (by decide)] at hf
      cases rest with
      | nil => simp at hf
      | cons c5 rest2 =>
        cases rest2 with
        | nil => simp at hf
        | cons c6 rest3 =>
          dsimp only at hf
          rw [if_neg (fun hcon => absurd hcon.1 (by decide))] at hf
          cases hf
    · cases hl

/-- C6 (amended): the notes of a parsed task are exactly the deeper
note-shaped lines of the maximal run of non-stopping lines (deeper note
lines and blank lines) after its task line; the run ends at a header, a
task line, a note line of indent not deeper than the task's, any other
non-blank line, or the window end.  Blank lines inside the run are skipped
rather than ending it. -/
theorem parse_log_notes_run (content : List Char) (w : Nat)
    (pre : List (List Char)) (tl : List Char) (post : List (List Char)) (f : TaskLine)
    (hdecomp : windowLines content w = pre ++ tl :: post)
    (hf : parse_task_line tl = some f)
    (hsec : (processLines (windowStart content w) pre ⟨[], none, []⟩).sections ≠ []) :
    (⟨windowStart content w + pre.length, f.indent, f.done, f.tag, f.number, f.title,
      runNotes f.indent.length (windowStart content w + pre.length + 1)
        (post.takeWhile (fun l => !noteStop f.indent.length l)),
      (processLines (windowStart content w) pre ⟨[], none, []⟩).date⟩ : Task) ∈
      allTasks (parse_log content w) := by
  rw [parse_log_eq_parseFrom, hdecomp, parseFrom_append, parseFrom_cons]
  rw [step_task (windowStart content w + pre.length) tl
    (processLines (windowStart content w) pre ⟨[], none, []⟩) f
    (header_none_of_task hf) hf]
  have hrun := processLines_run
    (post.takeWhile (fun l => !noteStop f.indent.length l))
    (windowStart content w + pre.length + 1)
    (post.dropWhile (fun l => !noteStop f.indent.length l))
    (pushOpt (processLines (windowStart content w) pre ⟨[], none, []⟩).sections
      (processLines (windowStart content w) pre ⟨[], none, []⟩).cur)
    (processLines (windowStart content w) pre ⟨[], none, []⟩).date
    ⟨windowStart content w + pre.length, f.indent, f.done, f.tag, f.number, f.title, [],
      (processLines (windowStart content w) pre ⟨[], none, []⟩).date⟩
    (fun l2 hl2 => by
      have hp := List.mem_takeWhile_imp hl2
      simp only [Bool.not_eq_true'] at hp
      exact hp)
  have heq : processLines (windowStart content w + pre.length + 1) post
      ⟨pushOpt (processLines (windowStart content w) pre ⟨[], none, []⟩).sections
        (processLines (windowStart content w) pre ⟨[], none, []⟩).cur,
       some ⟨windowStart content w + pre.length, f.indent, f.done, f.tag, f.number,
        f.title, [], (processLines (windowStart content w) pre ⟨[], none, []⟩).date⟩,
       (processLines (windowStart content w) pre ⟨[], none, []⟩).date⟩ =
      processLines (windowStart content w + pre.length + 1 +
        (post.takeWhile (fun l => !noteStop f.indent.length l)).length)
        (post.dropWhile (fun l => !noteStop f.indent.length l))
        ⟨pushOpt (processLines (windowStart content w) pre ⟨[], none, []⟩).sections
          (processLines (windowStart content w) pre ⟨[], none, []⟩).cur,
         some ⟨windowStart content w + pre.length, f.indent, f.done, f.tag, f.number,
          f.title, [] ++ runNotes f.indent.length (windowStart content w + pre.length + 1)
            (post.takeWhile (fun l => !noteStop f.indent.length l)),
          (processLines (windowStart content w) pre ⟨[], none, []⟩).date⟩,
         (processLines (windowStart content w) pre ⟨[], none, []⟩).date⟩ := by
    conv_lhs => rw [← List.takeWhile_append_dropWhile
      (fun l => !noteStop f.indent.length l) post]
    exact hrun
  show _ ∈ allTasks (finalize (processLines _ post _))
  rw [heq]
  exact parseFrom_cur_flushed
    (post.dropWhile (fun l => !noteStop f.indent.length l)) _ _ _ _
    (pushOpt_ne_nil _ _ hsec)
    (by
      cases hrest : post.dropWhile (fun l => !noteStop f.indent.length l) with
      | nil => exact .inl rfl
      | cons x xs =>
        refine .inr ⟨x, xs, rfl, ?_⟩
        have hx := dropWhile_head post x xs hrest
        simpa using hx)

/-- Counterexample to C6 as stated: a blank line does not end the notes of
the open task — here the parsed task's single note sits at line 3, beyond
the blank line 2, while the claim's contiguous deeper-indented run after
the task line is empty. -/
theorem parse_log_notes_run_cex :
    (allTasks (parse_log "### d\n- [ ] ab-1 t\n\n      - note\n".data 5000)).map
        (fun t => t.notes.map (fun n => n.line_number)) = [[3]] ∧
    ((rlines "### d\n- [ ] ab-1 t\n\n      - note\n".data).drop 2).takeWhile
        (fun l => decide (0 < (l.takeWhile isWsChar).length) &&
          (is_section_header l).isNone) = [] := by
  decide

/-- Witness for the amended C6: the notes run collects the deeper note
lines across a blank line and stops at the non-indented line. -/
theorem parse_log_notes_run_witness :
    (⟨1, [], false, "ab".data, 1, ['t'],
      runNotes 0 2 (([[], "      - n2".data, "end".data] : List (List Char)).takeWhile
        (fun l => !noteStop 0 l)), ['d']⟩ : Task) ∈
      allTasks (parse_log "### d\n- [ ] ab-1 t\n\n      - n2\nend\n".data 5000) := by
  have h := parse_log_notes_run "### d\n- [ ] ab-1 t\n\n      - n2\nend\n".data 5000
    [['#', '#', '#', ' ', 'd']] "- [ ] ab-1 t".data
    [[], "      - n2".data, "end".data]
    ⟨[], false, "ab".data, 1, ['t']⟩ (by decide) (by decide) (by decide)
  exact h

/-! ## Support lemmas for the add_task / add_note round trip -/

theorem isTagCh_ne_dash {c : Char} (h : isTagCh c = true) : c ≠ '-' := by
  intro hc
  rw [hc] at h
  exact absurd h (by decide)

theorem isTagCh_ne_nl {c : Char} (h : isTagCh c = true) : c ≠ '\n' := by
  intro hc
  rw [hc] at h
  exact absurd h (by decide)

theorem isDigitCh_ne_dash {c : Char} (h : isDigitCh c = true) : c ≠ '-' := by
  intro hc
  rw [hc] at h
  exact absurd h (by decide)

theorem isDigitCh_ne_nl {c : Char} (h : isDigitCh c = true) : c ≠ '\n' := by
  intro hc
  rw [hc] at h
  exact absurd h (by decide)

/-- Splitting an id string at the dash: when the second parts and the
right-hand tag are dash-free, the decomposition is unique. -/
theorem append_dash_inj : ∀ (a1 : List Char) {b1 : List Char} (a2 : List Char)
    {b2 : List Char}, a1 ++ '-' :: b1 = a2 ++ '-' :: b2 → '-' ∉ b1 → '-' ∉ a2 →
    '-' ∉ b2 → a1 = a2 ∧ b1 = b2 := by
  intro a1
  induction a1 with
  | nil =>
    intro b1 a2 b2 h hb1 ha2 hb2
    cases a2 with
    | nil =>
      simp only [List.nil_append, List.cons.injEq] at h
      exact ⟨rfl, h.2⟩
    | cons c2 a2' =>
      exfalso
      apply ha2
      simp only [List.nil_append, List.cons_append, List.cons.injEq] at h
      rw [h.1]
      exact List.mem_cons_self _ _
  | cons c a1' ih =>
    intro b1 a2 b2 h hb1 ha2 hb2
    cases a2 with
    | nil =>
      exfalso
      apply hb2
      simp only [List.cons_append, List.nil_append, List.cons.injEq] at h
      rw [← h.2]
      exact List.mem_append.mpr (.inr (List.mem_cons_self _ _))
    | cons c2 a2' =>
      simp only [List.cons_append, List.cons.injEq] at h
      obtain ⟨hc, hrest⟩ := h
      obtain ⟨he1, he2⟩ := ih a2' hrest hb1
        (fun hm => ha2 (List.mem_cons_of_mem c2 hm)) hb2
      subst hc
      exact ⟨by rw [he1], he2⟩

theorem foldr_max_mem (lst : List Task) (t : Task) (h : t ∈ lst) :
    t.number ≤ lst.foldr (fun u m => Nat.max u.number m) 0 := by
  induction lst with
  | nil => cases h
  | cons u rest ih =>
    rcases List.mem_cons.mp h with h | h
    · subst h
      exact Nat.le_max_left _ _
    · exact Nat.le_trans (ih h) (Nat.le_max_right _ _)

theorem le_maxTagNum {secs : List Section} {tag : List Char} {t : Task}
    (ht : t ∈ allTasks secs) (htag : t.tag = tag) :
    t.number ≤ maxTagNum secs tag := by
  unfold maxTagNum
  exact foldr_max_mem _ t (List.mem_filter.mpr ⟨ht, by simp [htag]⟩)

theorem lastHeaderAux_none {ls : List (List Char)} (h : lastHeaderAux ls = none) :
    ∀ j, j < ls.length → is_section_header (ls.getD j []) = none := by
  induction ls with
  | nil =>
    intro j hj
    simp at hj
  | cons l t ih =>
    intro j hj
    unfold lastHeaderAux at h
    cases hr : lastHeaderAux t with
    | some p =>
      rw [hr] at h
      cases h
    | none =>
      rw [hr] at h
      cases j with
      | zero =>
        cases hh : is_section_header l with
        | none => exact hh
        | some d =>
          rw [hh] at h
          cases h
      | succ k =>
        exact ih hr k (by simp only [List.length_cons] at hj; omega)

theorem lastHeaderAux_some {ls : List (List Char)} :
    ∀ {i : Nat} {d : List Char}, lastHeaderAux ls = some (i, d) →
      i < ls.length ∧ is_section_header (ls.getD i []) = some d ∧
        ∀ j, i < j → j < ls.length → is_section_header (ls.getD j []) = none := by
  induction ls with
  | nil =>
    intro i d h
    cases h
  | cons l t ih =>
    intro i d h
    unfold lastHeaderAux at h
    cases hr : lastHeaderAux t with
    | some p =>
      obtain ⟨i0, d0⟩ := p
      rw [hr] at h
      simp only [Option.some.injEq, Prod.mk.injEq] at h
      obtain ⟨hi, hd⟩ := h
      obtain ⟨ha, hb, hc⟩ := ih hr
      subst hi
      subst hd
      refine ⟨by simp only [List.length_cons]; omega, hb, ?_⟩
      intro j hj hjlt
      cases j with
      | zero => omega
      | succ k =>
        exact hc k (by omega) (by simp only [List.length_cons] at hjlt; omega)
    | none =>
      rw [hr] at h
      cases hh : is_section_header l with
      | none =>
        rw [hh] at h
        cases h
      | some dd =>
        rw [hh] at h
        simp only [Option.some.injEq, Prod.mk.injEq] at h
        obtain ⟨hi, hd⟩ := h
        subst hd
        refine ⟨by simp only [List.length_cons]; omega, by rw [← hi]; exact hh, ?_⟩
        intro j hj hjlt
        cases j with
        | zero => omega
        | succ k =>
          exact lastHeaderAux_none hr k (by simp only [List.length_cons] at hjlt; omega)

theorem step_sections_ne {st : PState} (i : Nat) (l : List Char)
    (h : st.sections ≠ []) : (step i l st).sections ≠ [] := by
  cases hh : is_section_header l with
  | some d =>
    rw [step_header i l st d hh]
    show pushOpt st.sections st.cur ++ [⟨[]⟩] ≠ []
    simp
  | none =>
    cases ht : parse_task_line l with
    | some f =>
      rw [step_task i l st f hh ht]
      exact pushOpt_ne_nil _ _ h
    | none =>
      cases hn : is_note_line l with
      | some p =>
        obtain ⟨ind, txt⟩ := p
        cases hc : st.cur with
        | some t0 =>
          by_cases hlen : ind.length > t0.indent.length
          · rw [step_note_attach i l st ind txt t0 hh ht hn hc hlen]
            exact h
          · rw [step_note_flush i l st ind txt t0 hh ht hn hc hlen]
            exact pushTask_ne_nil _ _ h
        | none =>
          rw [step_note_nocur i l st ind txt hh ht hn hc]
          exact h
      | none =>
        by_cases hb : l.all isWsChar
        · rw [step_blank i l st hh ht hn hb]
          exact h
        · rw [step_other i l st hh ht hn hb]
          exact pushOpt_ne_nil _ _ h

theorem processLines_sections_ne (ls : List (List Char)) :
    ∀ (i : Nat) (st : PState), st.sections ≠ [] →
      (processLines i ls st).sections ≠ [] := by
  induction ls with
  | nil =>
    intro i st h
    exact h
  | cons l rest ih =>
    intro i st h
    rw [processLines]
    exact ih (i + 1) (step i l st) (step_sections_ne i l h)

theorem processLines_ne_nil_of_header (ls : List (List Char)) :
    ∀ (i : Nat) (st : PState), (∃ l ∈ ls, (is_section_header l).isSome = true) →
      (processLines i ls st).sections ≠ [] := by
  induction ls with
  | nil =>
    intro i st h
    obtain ⟨l, hl, _⟩ := h
    cases hl
  | cons l rest ih =>
    intro i st ⟨x, hx, hxh⟩
    rw [processLines]
    rcases List.mem_cons.mp hx with hx | hx
    · subst hx
      obtain ⟨d, hd⟩ := Option.isSome_iff_exists.mp hxh
      apply processLines_sections_ne
      rw [step_header i x st d hd]
      show pushOpt st.sections st.cur ++ [⟨[]⟩] ≠ []
      simp
    · exact ih (i + 1) (step i l st) ⟨x, hx, hxh⟩

theorem parse_task_line_mk (c0 : Char) (trest ds title : List Char)
    (hlow : isLowerCh c0 = true)
    (htag : ∀ c ∈ c0 :: trest, isTagCh c = true)
    (hds : ds ≠ []) (hdsdig : ∀ c ∈ ds, isDigitCh c = true)
    (hval : digitsVal ds < 2 ^ 64)
    (htitle : title ≠ []) (htnl : title.all (fun c => c ≠ '\n') = true) :
    parse_task_line ('-' :: ' ' :: '[' :: ' ' :: ']' :: ' ' ::
        (((c0 :: trest) ++ '-' :: ds) ++ ' ' :: title)) =
      some ⟨[], false, c0 :: trest, digitsVal ds, title⟩ := by
  have hR : ((c0 :: trest) ++ '-' :: ds) ++ ' ' :: title =
      c0 :: (trest ++ '-' :: (ds ++ ' ' :: title)) := by
    simp
  have htake : (c0 :: (trest ++ '-' :: (ds ++ ' ' :: title))).takeWhile isTagCh =
      c0 :: trest := by
    rw [show c0 :: (trest ++ '-' :: (ds ++ ' ' :: title)) =
      (c0 :: trest) ++ '-' :: (ds ++ ' ' :: title) from by simp]
    rw [takeWhile_append_all (c0 :: trest) _ htag]
    rw [List.takeWhile_cons_of_neg (by decide)]
    simp
  have hdrop : (c0 :: (trest ++ '-' :: (ds ++ ' ' :: title))).dropWhile isTagCh =
      '-' :: (ds ++ ' ' :: title) := by
    rw [show c0 :: (trest ++ '-' :: (ds ++ ' ' :: title)) =
      (c0 :: trest) ++ '-' :: (ds ++ ' ' :: title) from by simp]
    rw [dropWhile_append_all (c0 :: trest) _ htag]
    rw [List.dropWhile_cons_of_neg (by decide)]
  have hdtake : (ds ++ ' ' :: title).takeWhile isDigitCh = ds := by
    rw [takeWhile_append_all ds _ hdsdig, List.takeWhile_cons_of_neg (by decide)]
    simp
  have hddrop : (ds ++ ' ' :: title).dropWhile isDigitCh = ' ' :: title := by
    rw [dropWhile_append_all ds _ hdsdig, List.dropWhile_cons_of_neg (by decide)]
  unfold parse_task_line
  rw [List.takeWhile_cons_of_neg (by decide), List.dropWhile_cons_of_neg (by decide)]
  dsimp only
  rw [if_pos (by decide)]
  rw [hR]
  dsimp only
  rw [if_pos hlow, htake, hdrop]
  dsimp only
  rw [if_pos rfl]
  rw [hdtake, if_neg hds, if_pos hval, hddrop]
  dsimp only
  rw [if_pos ⟨rfl, htitle, htnl⟩]
  rfl

theorem parse_task_line_inv {l : List Char} {f : TaskLine}
    (h : parse_task_line l = some f) :
    ∃ m rest, l.dropWhile isWsChar = '-' :: ' ' :: '[' :: m :: ']' :: ' ' :: rest ∧
      (m = ' ' ∨ m = 'x') := by
  unfold parse_task_line at h
  split at h
  · rename_i c1 c2 c3 m c5 c6 rest heq
    split at h
    · rename_i hguard
      obtain ⟨h1, h2, h3, h5, h6, hm⟩ := hguard
      subst h1
      subst h2
      subst h3
      subst h5
      subst h6
      exact ⟨m, rest, heq, hm⟩
    · cases h
  · cases h

theorem is_note_line_mk (k : Nat) (body : List Char) (hk : 0 < k) (hb : body ≠ [])
    (hbnl : body.all (fun c => c ≠ '\n') = true) :
    is_note_line (List.replicate k ' ' ++ '-' :: ' ' :: body) =
      some (List.replicate k ' ', body) := by
  have hrep : ∀ c ∈ List.replicate k ' ', isWsChar c = true := by
    intro c hc
    rw [List.eq_of_mem_replicate hc]
    decide
  have htake : (List.replicate k ' ' ++ '-' :: ' ' :: body).takeWhile isWsChar =
      List.replicate k ' ' := by
    rw [takeWhile_append_all _ _ hrep, List.takeWhile_cons_of_neg (by decide)]
    simp
  have hdrop : (List.replicate k ' ' ++ '-' :: ' ' :: body).dropWhile isWsChar =
      '-' :: ' ' :: body := by
    rw [dropWhile_append_all _ _ hrep, List.dropWhile_cons_of_neg (by decide)]
  have hrepne : List.replicate k ' ' ≠ [] := by
    intro hcon
    have := congrArg List.length hcon
    simp at this
    omega
  unfold is_note_line
  rw [htake, hdrop, if_neg hrepne]
  dsimp only
  rw [if_pos ⟨rfl, rfl, hb, hbnl⟩]

theorem header_none_dash (rest : List Char) :
    is_section_header ('-' :: rest) = none := rfl

theorem header_none_indent (k : Nat) (rest : List Char) (hk : 0 < k) :
    is_section_header (List.replicate k ' ' ++ rest) = none := by
  cases k with
  | zero => omega
  | succ k2 =>
    rw [List.replicate_succ, List.cons_append]
    rfl

theorem parse_task_line_note_none (k : Nat) (stamp text : List Char)
    (hbr : ']' ∉ stamp) (hsp : stamp ≠ [' ']) (hsx : stamp ≠ ['x']) :
    parse_task_line (List.replicate k ' ' ++ '-' :: ' ' ::
      ('[' :: (stamp ++ ']' :: ' ' :: text))) = none := by
  have hrep : ∀ c ∈ List.replicate k ' ', isWsChar c = true := by
    intro c hc
    rw [List.eq_of_mem_replicate hc]
    decide
  cases hres : parse_task_line (List.replicate k ' ' ++ '-' :: ' ' ::
      ('[' :: (stamp ++ ']' :: ' ' :: text))) with
  | none => rfl
  | some f =>
    exfalso
    obtain ⟨m, rest, heq, hm⟩ := parse_task_line_inv hres
    rw [dropWhile_append_all _ _ hrep, List.dropWhile_cons_of_neg (by decide)] at heq
    cases stamp with
    | nil =>
      simp only [List.nil_append, List.cons.injEq] at heq
      obtain ⟨-, -, -, -, h5, -⟩ := heq
      exact absurd h5 (by decide)
    | cons s0 srest =>
      cases srest with
      | nil =>
        simp only [List.cons_append, List.nil_append, List.cons.injEq] at heq
        obtain ⟨-, -, -, hs0, -, -, -⟩ := heq
        rcases hm with hm | hm
        · exact hsp (by rw [hs0, hm])
        · exact hsx (by rw [hs0, hm])
      | cons s1 srest2 =>
        simp only [List.cons_append, List.cons.injEq] at heq
        obtain ⟨-, -, -, -, hs1, -⟩ := heq
        exact hbr (by rw [hs1]; exact List.mem_cons_of_mem s0 (List.mem_cons_self ']' srest2))

theorem parseFrom_snoc_task (ls : List (List Char)) (tl : List Char) (f : TaskLine)
    (hh : is_section_header tl = none) (hf : parse_task_line tl = some f) :
    parseFrom 0 (ls ++ [tl]) ⟨[], none, []⟩ =
      pushTask (pushOpt (processLines 0 ls ⟨[], none, []⟩).sections
          (processLines 0 ls ⟨[], none, []⟩).cur)
        ⟨ls.length, f.indent, f.done, f.tag, f.number, f.title, [],
          (processLines 0 ls ⟨[], none, []⟩).date⟩ := by
  rw [parseFrom_append, Nat.zero_add, parseFrom_cons,
    step_task ls.length tl (processLines 0 ls ⟨[], none, []⟩) f hh hf]
  rfl

theorem parseFrom_snoc_task_note (ls : List (List Char)) (tl nl2 : List Char)
    (f : TaskLine) (ind txt : List Char)
    (hh : is_section_header tl = none) (hf : parse_task_line tl = some f)
    (hnh : is_section_header nl2 = none) (hnt : parse_task_line nl2 = none)
    (hnn : is_note_line nl2 = some (ind, txt))
    (hlen : ind.length > f.indent.length) :
    parseFrom 0 ((ls ++ [tl]) ++ [nl2]) ⟨[], none, []⟩ =
      pushTask (pushOpt (processLines 0 ls ⟨[], none, []⟩).sections
          (processLines 0 ls ⟨[], none, []⟩).cur)
        ⟨ls.length, f.indent, f.done, f.tag, f.number, f.title, [⟨ls.length + 1, txt⟩],
          (processLines 0 ls ⟨[], none, []⟩).date⟩ := by
  rw [List.append_assoc, parseFrom_append, Nat.zero_add, List.singleton_append,
    parseFrom_cons, step_task ls.length tl (processLines 0 ls ⟨[], none, []⟩) f hh hf,
    parseFrom_cons,
    step_note_attach (ls.length + 1) nl2
      ⟨pushOpt (processLines 0 ls ⟨[], none, []⟩).sections
          (processLines 0 ls ⟨[], none, []⟩).cur,
        some ⟨ls.length, f.indent, f.done, f.tag, f.number, f.title, [],
          (processLines 0 ls ⟨[], none, []⟩).date⟩,
        (processLines 0 ls ⟨[], none, []⟩).date⟩
      ind txt
      ⟨ls.length, f.indent, f.done, f.tag, f.number, f.title, [],
        (processLines 0 ls ⟨[], none, []⟩).date⟩
      hnh hnt hnn rfl hlen]
  rfl

/-- A freshly pushed task whose number strictly exceeds every same-tag
number already present is the unique id match. -/
theorem filter_id_pushTask (secs : List Section) (t : Task) (tg : List Char) (N : Nat)
    (hsec : secs ≠ []) (htg : ∀ c ∈ tg, isTagCh c = true)
    (httag : t.tag = tg) (htnum : t.number = N)
    (hlt : ∀ u ∈ allTasks secs, u.tag = tg → u.number < N) :
    (allTasks (pushTask secs t)).filter (fun u => u.id == tg ++ '-' :: natDigits N) =
      [t] := by
  rw [allTasks_pushTask secs t hsec, List.filter_append]
  have hnil : (allTasks secs).filter (fun u => u.id == tg ++ '-' :: natDigits N) = [] := by
    rw [List.filter_eq_nil_iff]
    intro u hu hbeq
    have hid : u.id = tg ++ '-' :: natDigits N := eq_of_beq hbeq
    unfold Task.id at hid
    have hinj := append_dash_inj u.tag tg hid
      (fun hmem => absurd rfl (isDigitCh_ne_dash (natDigits_digits u.number '-' hmem)))
      (fun hmem => absurd rfl (isTagCh_ne_dash (htg '-' hmem)))
      (fun hmem => absurd rfl (isDigitCh_ne_dash (natDigits_digits N '-' hmem)))
    have hn := natDigits_inj hinj.2
    have := hlt u hu hinj.1
    omega
  rw [hnil, List.nil_append, List.filter_cons,
    if_pos (show (t.id == tg ++ '-' :: natDigits N) = true by
      unfold Task.id
      rw [httag, htnum]
      exact beq_self_eq_true _)]
  rfl

/-- C7: from a log whose lines (plus the two inserted ones) fit in the scan
window, `add_task` followed by `add_note` on the returned id yields, after a
parse, exactly one task carrying that id, and its notes list is exactly one
entry whose text is the inserted `[<stamp>] <text>` body carrying the
submitted text. -/
theorem add_task_add_note_roundtrip (today stamp : List Char) (w note_indent : Nat)
    (st : StMap) (content tag title text id c2 : List Char) (st2 : StMap) (c3 : List Char)
    (htag : tag.all isTagCh = true)
    (hhead : ∃ c rest, tag = c :: rest ∧ isLowerCh c = true)
    (htitle : title ≠ []) (htnl : '\n' ∉ title)
    (htxnl : '\n' ∉ text) (hsnl : '\n' ∉ stamp) (hbr : ']' ∉ stamp)
    (hsp : stamp ≠ [' ']) (hsx : stamp ≠ ['x'])
    (hind : 0 < note_indent)
    (hwin : (rlines (ensure_today_section today content)).length + 2 ≤ w)
    (hval : Nat.max ((lookupTag st tag).getD 0)
        (maxTagNum (parse_log (ensure_today_section today content) w) tag) + 1 < 2 ^ 64)
    (hadd : add_task today w st content tag title = .ok (id, c2, st2))
    (hnote : add_note stamp w note_indent c2 id text = .ok c3) :
    ∃ t, find_task (parse_log c3 w) id = .ok t ∧
      t.notes.map (fun n => n.text) = ['[' :: (stamp ++ ']' :: ' ' :: text)] := by
  obtain ⟨c0, trest, htagdef, hlow⟩ := hhead
  subst htagdef
  have hne : (c0 :: trest : List Char) ≠ [] := by simp
  unfold add_task at hadd
  rw [if_neg (fun hcon => hcon.elim (fun h1 => h1 htag) (fun h2 => hne h2))] at hadd
  cases hfls : find_last_section (ensure_today_section today content) with
  | none => simp [hfls] at hadd
  | some pr =>
    obtain ⟨L, d⟩ := pr
    simp only [hfls, Except.ok.injEq, Prod.mk.injEq] at hadd
    obtain ⟨hid, hc2, hst2⟩ := hadd
    simp only [next_id_after_sync] at hid hc2
    rw [Nat.mod_eq_of_lt hval] at hid hc2
    set c1 := ensure_today_section today content with hc1def
    set N := Nat.max ((lookupTag st (c0 :: trest)).getD 0)
      (maxTagNum (parse_log c1 w) (c0 :: trest)) + 1 with hNdef
    subst hid
    unfold find_last_section at hfls
    obtain ⟨hLlt, hLhdr, hLlast⟩ := lastHeaderAux_some hfls
    have hfse : find_section_end c1 L = (rlines c1).length := by
      have hnone : firstHeaderIdx ((rlines c1).drop (L + 1)) = none := by
        rw [firstHeaderIdx_none]
        intro k hk
        rw [getD_drop]
        have hjlt : L + 1 + k < (rlines c1).length := by
          rw [List.length_drop] at hk
          omega
        rw [hLlast (L + 1 + k) (by omega) hjlt]
        rfl
      simp only [find_section_end, hnone]
    rw [hfse, if_pos (le_refl ((rlines c1).length))] at hc2
    set tl := '-' :: ' ' :: '[' :: ' ' :: ']' :: ' ' ::
      (((c0 :: trest) ++ '-' :: natDigits N) ++ ' ' :: title) with htldef
    have hidnl : '\n' ∉ (c0 :: trest) ++ '-' :: natDigits N := by
      intro hmem
      rcases List.mem_append.mp hmem with h | h
      · exact absurd rfl (isTagCh_ne_nl (List.all_eq_true.mp htag '\n' h))
      · rcases List.mem_cons.mp h with h | h
        · exact absurd h (by decide)
        · exact absurd rfl (isDigitCh_ne_nl (natDigits_digits N '\n' h))
    have htlnl : '\n' ∉ tl := by
      rw [htldef]
      intro hmem
      simp only [List.mem_cons] at hmem
      rcases hmem with h | h | h | h | h | h | hmem
      · exact absurd h (by decide)
      · exact absurd h (by decide)
      · exact absurd h (by decide)
      · exact absurd h (by decide)
      · exact absurd h (by decide)
      · exact absurd h (by decide)
      · rcases List.mem_append.mp hmem with h | h
        · exact hidnl h
        · rcases List.mem_cons.mp h with h | h
          · exact absurd h (by decide)
          · exact htnl h
    have htlne : tl ≠ [] := by
      rw [htldef]
      simp
    have hrl2 : rlines c2 = rlines c1 ++ [tl] := by
      rw [← hc2]
      exact rlines_unlines_concat (rlines c1) tl htlne htlnl (rlines_no_nl c1)
    have hws1 : windowStart c1 w = 0 := by
      unfold windowStart
      rw [if_neg (by omega)]
    have hwl1 : windowLines c1 w = rlines c1 := by
      unfold windowLines
      rw [hws1, List.drop_zero]
    have hplog1 : parse_log c1 w =
        pushOpt (processLines 0 (rlines c1) ⟨[], none, []⟩).sections
          (processLines 0 (rlines c1) ⟨[], none, []⟩).cur := by
      rw [parse_log_eq_parseFrom, hws1, hwl1]
      rfl
    have hlen2 : (rlines c2).length = (rlines c1).length + 1 := by
      rw [hrl2]
      simp
    have hws2 : windowStart c2 w = 0 := by
      unfold windowStart
      rw [if_neg (by rw [hlen2]; omega)]
    have hwl2 : windowLines c2 w = rlines c1 ++ [tl] := by
      unfold windowLines
      rw [hws2, List.drop_zero, hrl2]
    have htitleall : title.all (fun c => c ≠ '\n') = true := by
      rw [List.all_eq_true]
      intro c hc
      simp only [decide_eq_true_eq]
      intro hcc
      subst hcc
      exact htnl hc
    have hptl : parse_task_line tl = some ⟨[], false, c0 :: trest, N, title⟩ := by
      have h := parse_task_line_mk c0 trest (natDigits N) title hlow
        (List.all_eq_true.mp htag) (natDigits_ne_nil N) (natDigits_digits N)
        (by rw [digitsVal_natDigits]; exact hval) htitle htitleall
      rw [digitsVal_natDigits] at h
      rw [htldef]
      exact h
    have hplog2 : parse_log c2 w =
        pushTask (pushOpt (processLines 0 (rlines c1) ⟨[], none, []⟩).sections
            (processLines 0 (rlines c1) ⟨[], none, []⟩).cur)
          ⟨(rlines c1).length, [], false, c0 :: trest, N, title, [],
            (processLines 0 (rlines c1) ⟨[], none, []⟩).date⟩ := by
      rw [parse_log_eq_parseFrom, hws2, hwl2]
      exact parseFrom_snoc_task (rlines c1) tl ⟨[], false, c0 :: trest, N, title⟩
        (by rw [htldef]; exact header_none_dash _) hptl
    have hP1ne : (processLines 0 (rlines c1) ⟨[], none, []⟩).sections ≠ [] := by
      apply processLines_ne_nil_of_header
      refine ⟨(rlines c1).getD L [], ?_, ?_⟩
      · have hgl : (rlines c1).getD L [] = (rlines c1).get ⟨L, hLlt⟩ := by
          simp [List.getD_eq_getElem?_getD, List.getElem?_eq_getElem hLlt]
        rw [hgl]
        exact List.get_mem _ _ hLlt
      · rw [hLhdr]
        rfl
    have hS2ne : pushOpt (processLines 0 (rlines c1) ⟨[], none, []⟩).sections
        (processLines 0 (rlines c1) ⟨[], none, []⟩).cur ≠ [] :=
      pushOpt_ne_nil _ _ hP1ne
    have hlt : ∀ u ∈ allTasks (pushOpt (processLines 0 (rlines c1) ⟨[], none, []⟩).sections
        (processLines 0 (rlines c1) ⟨[], none, []⟩).cur),
        u.tag = c0 :: trest → u.number < N := by
      intro u hu hut
      rw [← hplog1] at hu
      have h1 := le_maxTagNum hu hut
      have h3 : maxTagNum (parse_log c1 w) (c0 :: trest) < N := by
        rw [hNdef]
        exact Nat.lt_succ_of_le (Nat.le_max_right _ _)
      exact Nat.lt_of_le_of_lt h1 h3
    have hfil2 := filter_id_pushTask
      (pushOpt (processLines 0 (rlines c1) ⟨[], none, []⟩).sections
        (processLines 0 (rlines c1) ⟨[], none, []⟩).cur)
      ⟨(rlines c1).length, [], false, c0 :: trest, N, title, [],
        (processLines 0 (rlines c1) ⟨[], none, []⟩).date⟩
      (c0 :: trest) N hS2ne (List.all_eq_true.mp htag) rfl rfl hlt
    have hfind2 : find_task (parse_log c2 w) ((c0 :: trest) ++ '-' :: natDigits N) =
        .ok ⟨(rlines c1).length, [], false, c0 :: trest, N, title, [],
          (processLines 0 (rlines c1) ⟨[], none, []⟩).date⟩ := by
      simp only [find_task, hplog2, hfil2]
    have hnote2 : add_note stamp w note_indent c2 ((c0 :: trest) ++ '-' :: natDigits N)
        text = .ok (unlines (insertAt ((rlines c1).length + 1)
          (List.replicate note_indent ' ' ++
            '-' :: ' ' :: '[' :: (stamp ++ ']' :: ' ' :: text)) (rlines c2))) := by
      unfold add_note
      rw [hfind2]
      rfl
    have hc3 : c3 = unlines (insertAt ((rlines c1).length + 1)
        (List.replicate note_indent ' ' ++
          '-' :: ' ' :: '[' :: (stamp ++ ']' :: ' ' :: text)) (rlines c2)) := by
      rw [hnote] at hnote2
      exact Except.ok.inj hnote2
    have hins : insertAt ((rlines c1).length + 1)
        (List.replicate note_indent ' ' ++
          '-' :: ' ' :: '[' :: (stamp ++ ']' :: ' ' :: text)) (rlines c2) =
        (rlines c1 ++ [tl]) ++
          [List.replicate note_indent ' ' ++
            '-' :: ' ' :: '[' :: (stamp ++ ']' :: ' ' :: text)] := by
      rw [hrl2, show (rlines c1).length + 1 = (rlines c1 ++ [tl]).length from by simp]
      exact insertAt_length _ _
    have hbodynl : '\n' ∉ ('[' :: (stamp ++ ']' :: ' ' :: text) : List Char) := by
      intro hmem
      rcases List.mem_cons.mp hmem with h | h
      · exact absurd h (by decide)
      · rcases List.mem_append.mp h with h | h
        · exact hsnl h
        · rcases List.mem_cons.mp h with h | h
          · exact absurd h (by decide)
          · rcases List.mem_cons.mp h with h | h
            · exact absurd h (by decide)
            · exact htxnl h
    have hnlnl : '\n' ∉ List.replicate note_indent ' ' ++
        '-' :: ' ' :: '[' :: (stamp ++ ']' :: ' ' :: text) := by
      intro hmem
      rcases List.mem_append.mp hmem with h | h
      · exact absurd (List.eq_of_mem_replicate h) (by decide)
      · rcases List.mem_cons.mp h with h | h
        · exact absurd h (by decide)
        · rcases List.mem_cons.mp h with h | h
          · exact absurd h (by decide)
          · exact hbodynl h
    have hrl3 : rlines c3 = (rlines c1 ++ [tl]) ++
        [List.replicate note_indent ' ' ++
          '-' :: ' ' :: '[' :: (stamp ++ ']' :: ' ' :: text)] := by
      rw [hc3, hins]
      exact rlines_unlines_concat (rlines c1 ++ [tl]) _ (by simp) hnlnl
        (fun y hy => by
          rcases List.mem_append.mp hy with h | h
          · exact rlines_no_nl c1 y h
          · have hytl := List.mem_singleton.mp h
            rw [hytl]
            exact htlnl)
    have hlen3 : (rlines c3).length = (rlines c1).length + 2 := by
      rw [hrl3]
      simp only [List.length_append, List.length_singleton]
    have hws3 : windowStart c3 w = 0 := by
      unfold windowStart
      rw [if_neg (by rw [hlen3]; omega)]
    have hwl3 : windowLines c3 w = (rlines c1 ++ [tl]) ++
        [List.replicate note_indent ' ' ++
          '-' :: ' ' :: '[' :: (stamp ++ ']' :: ' ' :: text)] := by
      unfold windowLines
      rw [hws3, List.drop_zero, hrl3]
    have hbody : ('[' :: (stamp ++ ']' :: ' ' :: text)).all (fun c => c ≠ '\n') = true := by
      rw [List.all_eq_true]
      intro c hc
      simp only [decide_eq_true_eq]
      intro hcc
      subst hcc
      exact hbodynl hc
    have hplog3 : parse_log c3 w =
        pushTask (pushOpt (processLines 0 (rlines c1) ⟨[], none, []⟩).sections
            (processLines 0 (rlines c1) ⟨[], none, []⟩).cur)
          ⟨(rlines c1).length, [], false, c0 :: trest, N, title,
            [⟨(rlines c1).length + 1, '[' :: (stamp ++ ']' :: ' ' :: text)⟩],
            (processLines 0 (rlines c1) ⟨[], none, []⟩).date⟩ := by
      rw [parse_log_eq_parseFrom, hws3, hwl3]
      exact parseFrom_snoc_task_note (rlines c1) tl
        (List.replicate note_indent ' ' ++
          '-' :: ' ' :: '[' :: (stamp ++ ']' :: ' ' :: text))
        ⟨[], false, c0 :: trest, N, title⟩
        (List.replicate note_indent ' ') ('[' :: (stamp ++ ']' :: ' ' :: text))
        (by rw [htldef]; exact header_none_dash _) hptl
        (header_none_indent note_indent _ hind)
        (parse_task_line_note_none note_indent stamp text hbr hsp hsx)
        (is_note_line_mk note_indent ('[' :: (stamp ++ ']' :: ' ' :: text)) hind
          (by simp) hbody)
        (by simp only [List.length_replicate, List.length_nil]; exact hind)
    have hfil3 := filter_id_pushTask
      (pushOpt (processLines 0 (rlines c1) ⟨[], none, []⟩).sections
        (processLines 0 (rlines c1) ⟨[], none, []⟩).cur)
      ⟨(rlines c1).length, [], false, c0 :: trest, N, title,
        [⟨(rlines c1).length + 1, '[' :: (stamp ++ ']' :: ' ' :: text)⟩],
        (processLines 0 (rlines c1) ⟨[], none, []⟩).date⟩
      (c0 :: trest) N hS2ne (List.all_eq_true.mp htag) rfl rfl hlt
    have hfind3 : find_task (parse_log c3 w) ((c0 :: trest) ++ '-' :: natDigits N) =
        .ok ⟨(rlines c1).length, [], false, c0 :: trest, N, title,
          [⟨(rlines c1).length + 1, '[' :: (stamp ++ ']' :: ' ' :: text)⟩],
          (processLines 0 (rlines c1) ⟨[], none, []⟩).date⟩ := by
      simp only [find_task, hplog3, hfil3]
    exact ⟨_, hfind3, rfl⟩

/-- Witness for C7: adding `foo-1 bar` to a one-header log and then a note
`baz` yields a parse with exactly one `foo-1` task whose single note entry
is `[05/10/2026 07:00PM] baz`. -/
theorem add_task_add_note_roundtrip_witness :
    ∃ t, find_task (parse_log
        "### 05/10/2026\n- [ ] foo-1 bar\n      - [05/10/2026 07:00PM] baz\n".data 5000)
        "foo-1".data = .ok t ∧
      t.notes.map (fun n => n.text) =
        ['[' :: ("05/10/2026 07:00PM".data ++ ']' :: ' ' :: "baz".data)] :=
  add_task_add_note_roundtrip "05/10/2026".data "05/10/2026 07:00PM".data 5000 6 []
    "### 05/10/2026\n".data "foo".data "bar".data "baz".data "foo-1".data
    "### 05/10/2026\n- [ ] foo-1 bar\n".data [("foo".data, 1)]
    "### 05/10/2026\n- [ ] foo-1 bar\n      - [05/10/2026 07:00PM] baz\n".data
    (by decide) ⟨'f', "oo".data, rfl, by decide⟩ (by decide) (by decide) (by decide)
    (by decide) (by decide) (by decide) (by decide) (by decide) (by decide) (by decide)
    (by decide) (by decide)

example : rlines "a\nb\n".data = [['a'], ['b']] := by decide
example : rlines "".data = [] := by decide
example : rlines "\n".data = [[]] := by decide
example : parse_task_line "- [ ] foo-7 fix it".data =
    some ⟨[], false, "foo".data, 7, "fix it".data⟩ := by decide
example : is_section_header "### 01/02/2024 ".data = some "01/02/2024".data := by decide
example : (allTasks (parse_log "### d\n- [ ] ab-1 t\n      - n1\n".data 5000)).length = 1 := by
  decide

example :
    add_task "05/10/2026".data 5000 [("foo".data, 3)]
      "### 05/10/2026\n- [ ] foo-7 legacy\n".data "foo".data "new".data =
      .ok ("foo-8".data,
        "### 05/10/2026\n- [ ] foo-7 legacy\n- [ ] foo-8 new\n".data,
        [("foo".data, 8)]) := by decide

example :
    complete_task "s".data 5000 "### d\n- [ ] ab-1 t\n".data "ab-1".data =
      .ok "### d\n- [x] ab-1 t (s)\n".data := by decide

example :
    add_note "s".data 5000 6 "### d\n- [ ] ab-1 t\n".data "ab-1".data "hello".data =
      .ok "### d\n- [ ] ab-1 t\n      - [s] hello\n".data := by decide

example : ensure_today_section "x".data "".data = "\n### x\n".data := by decide

example : get_today "d".data "### e\n### d\nline\n### f\n".data = .ok "### d\nline".data := by
  decide

end Tasklog
